import Mathlib

/-!
Verification of the maestro-builder client against its specification.

The definitions below are shallow embeddings of the TypeScript source:
  * `src/src/App.tsx`                — chat state, `mergeYaml`, `handleSendMessage`
  * `src/src/services/api.ts`       — `sendMessage`, `streamGenerateMessage`,
                                      `getAsyncResult`, `startStatusPolling`,
                                      `getFallbackResponse`, `formatYamlContent`
  * `src/src/components/YamlPanel.tsx` — `computeDiffLines`, `decodeEscaped`,
                                      `renderDiff`, the inline-edit encoder
  * `src/unnamed/part_002`          — the poll-based `handleSendMessage` variant

Strings that only flow through the store are modelled by `String`; the
character-level components (stream decoding, diffing, escaping) are modelled
on `List Char`.  External host functions (`JSON.parse`, the diff-match-patch
library) are either taken as parameters constrained by their documented
behaviour or modelled on the fragment the theorems exercise; each such
definition says so in its doc comment.
-/

namespace MaestroBuilder

/-- A named YAML file as carried by events and stored by the client.  The
source's `YamlFile` also has a constant `language : 'yaml'` field, which is
never branched on and is omitted. -/
structure NamedFile where
  name : String
  content : String
  deriving DecidableEq, Repr

/-- Terminal payload of a generation request (`ChatResponse` in
`src/src/services/api.ts`). -/
structure ChatResponse where
  response : String
  yaml_files : List NamedFile
  chat_id : String
  deriving DecidableEq, Repr

/-- The wire events of the generation stream (`StreamEvent` in
`src/src/services/api.ts`). -/
inductive StreamEvent where
  | chatIdEvt (chat_id : String)
  | statusEvt (message : String)
  | agentsYaml (file : NamedFile)
  | workflowYaml (file : NamedFile)
  | finalEvt (response : String) (yaml_files : List NamedFile) (chat_id : String)
  | errorEvt (message : String)
  | doneEvt
  | aiOutput (source : String) (line : String)
  deriving DecidableEq, Repr

/-- `mergeYaml` from `src/src/App.tsx` lines 199-207: if a file of the same
name is already stored its content is replaced wholesale, otherwise the
incoming file is appended. -/
def mergeYaml (prev : List NamedFile) (incoming : NamedFile) : List NamedFile :=
  if prev.any (fun f => f.name == incoming.name) then
    prev.map (fun f => if f.name == incoming.name then { f with content := incoming.content } else f)
  else
    prev ++ [incoming]

/-- The content stored for an artifact name (the client reads files back by
name, e.g. `yamlFiles.find(f => f.name === ...)` in `App.tsx`). -/
def getContent (files : List NamedFile) (name : String) : Option String :=
  (files.find? (fun f => f.name == name)).map (·.content)

theorem getContent_mergeYaml_self (s : List NamedFile) (u : NamedFile) :
    getContent (mergeYaml s u) u.name = some u.content := by
  unfold mergeYaml
  by_cases h : s.any (fun f => f.name == u.name)
  · simp only [h, if_true]
    induction s with
    | nil => simp at h
    | cons f t ih =>
      by_cases hf : f.name == u.name
      · simp [getContent, List.find?, hf]
      · simp only [List.any_cons, hf, Bool.false_or] at h
        simpa [getContent, List.find?, hf] using ih h
  · simp only [h, if_false]
    have hnone : s.find? (fun f => f.name == u.name) = none := by
      rw [List.find?_eq_none]
      intro f hf
      by_contra hc
      exact h (List.any_of_mem hf (by simpa using hc))
    simp [getContent, List.find?_append, hnone, List.find?]

theorem getContent_map_replace (s : List NamedFile) (u : NamedFile) (n : String)
    (hne : n ≠ u.name) :
    getContent (s.map (fun f => if f.name == u.name then { f with content := u.content } else f)) n
      = getContent s n := by
  induction s with
  | nil => simp [getContent]
  | cons f t ih =>
    by_cases hf : f.name == u.name
    · have hfu : f.name = u.name := by simpa using hf
      have hfn : (f.name == n) = false := by
        rw [beq_eq_false_iff_ne]
        exact fun hc => hne (hc ▸ hfu)
      simpa [getContent, List.find?, hf, hfn] using ih
    · by_cases hfn : f.name == n
      · simp [getContent, List.find?, hf, hfn]
      · simpa [getContent, List.find?, hf, hfn] using ih

theorem getContent_mergeYaml_other (s : List NamedFile) (u : NamedFile) (n : String)
    (hne : n ≠ u.name) :
    getContent (mergeYaml s u) n = getContent s n := by
  unfold mergeYaml
  by_cases h : s.any (fun f => f.name == u.name)
  · simp only [h, if_true]
    exact getContent_map_replace s u n hne
  · simp only [h, if_false]
    have : (u.name == n) = false := by
      rw [beq_eq_false_iff_ne]
      exact fun hc => hne hc.symm
    simp [getContent, List.find?_append, List.find?, this]

/-- Folding a batch of updates through `mergeYaml`: the stored content of `n`
is the content of the last update named `n`, and untouched names keep their
previous content. -/
theorem getContent_foldl_mergeYaml (l : List NamedFile) (s : List NamedFile) (n : String) :
    getContent (l.foldl mergeYaml s) n =
      match l.reverse.find? (fun u => u.name == n) with
      | some u => some u.content
      | none => getContent s n := by
  induction l generalizing s with
  | nil => simp
  | cons u t ih =>
    rw [List.foldl_cons, ih, List.reverse_cons, List.find?_append]
    cases ht : t.reverse.find? (fun u => u.name == n) with
    | some v => simp [Option.orElse]
    | none =>
      set_option maxRecDepth 2000 in
      by_cases hu : u.name == n
      · have hn : n = u.name := (beq_iff_eq.mp hu).symm
        subst hn
        simp [Option.orElse, List.find?, getContent_mergeYaml_self s u]
      · have hne : n ≠ u.name := fun hc => by simp [hc] at hu
        simp [Option.orElse, List.find?, hu, getContent_mergeYaml_other s u n hne]

theorem find?_eq_head?_filter (p : α → Bool) (l : List α) :
    l.find? p = (l.filter p).head? := by
  induction l with
  | nil => rfl
  | cons a t ih =>
    rw [List.find?_cons, List.filter_cons]
    cases h : p a with
    | true => simp
    | false => exact ih

theorem getLast?_filter_eq_find?_reverse (p : α → Bool) (l : List α) :
    (l.filter p).getLast? = l.reverse.find? p := by
  rw [List.getLast?_eq_head?_reverse, ← List.filter_reverse, find?_eq_head?_filter]

/-- The slice of App state that `handleSendMessage` mutates: the stored YAML
files, the contents of the assistant messages appended so far, the content of
the dedicated live log message, and the current chat id.  Message ids and
timestamps (`Date.now()`) are not modelled. -/
structure ClientState where
  yamlFiles : List NamedFile
  appended : List String
  log : String
  chatId : Option String
  deriving DecidableEq, Repr

/-- `m.content ? m.content + "\n" + line : line` — the log-append pattern used
for `status`, `ai_output` and log-stream lines in `App.tsx`. -/
def appendLog (log line : String) : String :=
  if log = "" then line else log ++ "\n" ++ line

/-- One step of the streaming `onEvent` handler in `src/src/App.tsx` lines
226-261.  `parseFP` stands for the host's `JSON.parse` followed by the truthy
`final_prompt` check: `some p` when the response text parses as JSON with a
truthy `final_prompt` field `p`, otherwise `none` (the `catch {}` keeps the
raw text).  The `loadChatHistory` refresh is a pure fetch and is not
modelled. -/
def applyStreamEvent (parseFP : String → Option String) (st : ClientState) :
    StreamEvent → ClientState
  | .statusEvt m => { st with log := appendLog st.log ("… " ++ m) }
  | .chatIdEvt c => { st with chatId := some c }
  | .agentsYaml f => { st with yamlFiles := mergeYaml st.yamlFiles f }
  | .workflowYaml f => { st with yamlFiles := mergeYaml st.yamlFiles f }
  | .aiOutput _ line => { st with log := appendLog st.log line }
  | .finalEvt r files c =>
      { st with
        appended := st.appended ++ [match parseFP r with | some p => p | none => r]
        yamlFiles := files.foldl mergeYaml st.yamlFiles
        chatId := some c }
  | .errorEvt m => { st with log := st.log ++ "\nError: " ++ m }
  | .doneEvt => st

/-- Processing a whole event sequence on the streaming path. -/
def runStream (parseFP : String → Option String) (st : ClientState)
    (es : List StreamEvent) : ClientState :=
  es.foldl (applyStreamEvent parseFP) st

/-- The non-streaming branch of `handleSendMessage` (`src/src/App.tsx` lines
272-288): every file of the response is merged, the raw `response.response`
text is appended as the assistant message, and the chat id is adopted.
The branch calls `apiService.sendGenerateMessage`, which does not exist in
`src/src/services/api.ts`; the response shape is modelled from the spec's
whole-request retrieval payload (`{response, yaml_files, chat_id}`). -/
def applyNonStreaming (st : ClientState) (resp : ChatResponse) : ClientState :=
  { st with
    yamlFiles := resp.yaml_files.foldl mergeYaml st.yamlFiles
    appended := st.appended ++ [resp.response]
    chatId := some resp.chat_id }

/-- The artifact updates carried by one event, in the order the handler merges
them. -/
def eventUpdates : StreamEvent → List NamedFile
  | .agentsYaml f => [f]
  | .workflowYaml f => [f]
  | .finalEvt _ files _ => files
  | _ => []

/-- All artifact updates of an event sequence, in emission order. -/
def allUpdates (es : List StreamEvent) : List NamedFile :=
  es.flatMap eventUpdates

theorem runStream_yamlFiles (parseFP : String → Option String) (st : ClientState)
    (es : List StreamEvent) :
    (runStream parseFP st es).yamlFiles = (allUpdates es).foldl mergeYaml st.yamlFiles := by
  induction es generalizing st with
  | nil => simp [runStream, allUpdates]
  | cons e t ih =>
    rw [runStream, List.foldl_cons, ← runStream, ih]
    simp only [allUpdates, List.flatMap_cons, List.foldl_append]
    cases e <;> simp [applyStreamEvent, eventUpdates]

/-- Only the `final` event branch of the handler appends a new assistant
message. -/
def isFinalEvt : StreamEvent → Bool
  | .finalEvt _ _ _ => true
  | _ => false

theorem runStream_appended (parseFP : String → Option String) (st : ClientState)
    (es : List StreamEvent)
    (h : ∀ e ∈ es, isFinalEvt e = false) :
    (runStream parseFP st es).appended = st.appended := by
  induction es generalizing st with
  | nil => rfl
  | cons e t ih =>
    rw [runStream, List.foldl_cons, ← runStream]
    rw [ih _ (fun e he => h e (List.mem_cons_of_mem _ he))]
    cases e with
    | finalEvt r files c => simpa [isFinalEvt] using h _ (List.mem_cons_self _ _)
    | _ => rfl

theorem getContent_foldl_of_filter_ne_nil (l s : List NamedFile) (n : String)
    (h : l.filter (fun u => u.name == n) ≠ []) :
    getContent (l.foldl mergeYaml s) n
      = (l.filter (fun u => u.name == n)).getLast?.map (·.content) := by
  rw [getContent_foldl_mergeYaml, ← getLast?_filter_eq_find?_reverse]
  cases hg : (l.filter (fun u => u.name == n)).getLast? with
  | some u => rfl
  | none => exact absurd (List.getLast?_eq_none_iff.mp hg) h

/-- The placeholder YAML files the App starts with (`src/src/App.tsx` lines
32-43). -/
def initialYamlFiles : List NamedFile :=
  [⟨"agents.yaml",
    "# Agents configuration will be generated here\nagents:\n  # Your agents will appear here"⟩,
   ⟨"workflow.yaml",
    "# Workflow configuration will be generated here\nworkflow:\n  # Your workflow will appear here"⟩]

/-- Client state at the moment `handleSendMessage` starts processing events:
the live log message has been created with content `Starting…`. -/
def initialClientState : ClientState :=
  { yamlFiles := initialYamlFiles, appended := [], log := "Starting…", chatId := none }

/-- C1: for every artifact name and every event sequence, folding through the
client's merge leaves the stored content of that artifact equal to the content
carried by the last update naming it, on both the streaming path
(`runStream`) and the non-streaming path (`applyNonStreaming`); and a single
`mergeYaml` stores the incoming content wholesale (whole-document
replacement, never a partial patch). -/
theorem last_writer_wins (parseFP : String → Option String) (st : ClientState)
    (es : List StreamEvent) (resp : ChatResponse) (n : String)
    (hstream : (allUpdates es).filter (fun u => u.name == n) ≠ [])
    (hdirect : resp.yaml_files.filter (fun u => u.name == n) ≠ []) :
    (∀ s u, getContent (mergeYaml s u) u.name = some u.content)
    ∧ getContent (runStream parseFP st es).yamlFiles n
        = ((allUpdates es).filter (fun u => u.name == n)).getLast?.map (·.content)
    ∧ getContent (applyNonStreaming st resp).yamlFiles n
        = (resp.yaml_files.filter (fun u => u.name == n)).getLast?.map (·.content) :=
  ⟨getContent_mergeYaml_self,
   by rw [runStream_yamlFiles]
      exact getContent_foldl_of_filter_ne_nil _ _ _ hstream,
   getContent_foldl_of_filter_ne_nil _ _ _ hdirect⟩

theorem last_writer_wins_witness :
    ((allUpdates [StreamEvent.agentsYaml ⟨"agents.yaml", "a1"⟩,
        StreamEvent.finalEvt "done" [⟨"agents.yaml", "a2"⟩] "c"]).filter
          (fun u => u.name == "agents.yaml") ≠ [])
    ∧ (((ChatResponse.mk "done" [⟨"agents.yaml", "b1"⟩, ⟨"agents.yaml", "b2"⟩] "c").yaml_files).filter
          (fun u => u.name == "agents.yaml") ≠ [])
    ∧ ((∀ s u, getContent (mergeYaml s u) u.name = some u.content)
    ∧ getContent (runStream (fun _ => none) initialClientState
          [StreamEvent.agentsYaml ⟨"agents.yaml", "a1"⟩,
           StreamEvent.finalEvt "done" [⟨"agents.yaml", "a2"⟩] "c"]).yamlFiles "agents.yaml"
        = ((allUpdates [StreamEvent.agentsYaml ⟨"agents.yaml", "a1"⟩,
            StreamEvent.finalEvt "done" [⟨"agents.yaml", "a2"⟩] "c"]).filter
              (fun u => u.name == "agents.yaml")).getLast?.map (·.content)
    ∧ getContent (applyNonStreaming initialClientState
          (ChatResponse.mk "done" [⟨"agents.yaml", "b1"⟩, ⟨"agents.yaml", "b2"⟩] "c")).yamlFiles "agents.yaml"
        = (((ChatResponse.mk "done" [⟨"agents.yaml", "b1"⟩, ⟨"agents.yaml", "b2"⟩] "c").yaml_files).filter
              (fun u => u.name == "agents.yaml")).getLast?.map (·.content)) :=
  ⟨by decide, by decide,
   last_writer_wins (fun _ => none) initialClientState
     [StreamEvent.agentsYaml ⟨"agents.yaml", "a1"⟩,
      StreamEvent.finalEvt "done" [⟨"agents.yaml", "a2"⟩] "c"]
     (ChatResponse.mk "done" [⟨"agents.yaml", "b1"⟩, ⟨"agents.yaml", "b2"⟩] "c")
     "agents.yaml" (by decide) (by decide)⟩

/-! ### A model of the host `JSON.parse` for `final_prompt` extraction -/

def isJsonWs (c : Char) : Bool :=
  c = ' ' || c = '\t' || c = '\n' || c = '\r'

/-- Scan the body of a JSON string up to the closing quote.  Escape sequences
are not supported (they make the scan fail). -/
def scanJString : List Char → Option (List Char × List Char)
  | [] => none
  | c :: rest =>
    if c = '"' then some ([], rest)
    else if c = '\\' then none
    else (scanJString rest).map (fun p => (c :: p.1, p.2))

/-- Parse one JSON string literal after optional whitespace. -/
def parseJString (s : List Char) : Option (List Char × List Char) :=
  match s.dropWhile isJsonWs with
  | '"' :: rest => scanJString rest
  | _ => none

/-- Parse a nonempty comma-separated list of `"key": "value"` members; the
first component of the result is the association list, the second the rest of
the input with leading whitespace removed. -/
def parseMembers : Nat → List Char → Option (List (String × String) × List Char)
  | 0, _ => none
  | fuel + 1, s =>
    match parseJString s with
    | none => none
    | some (k, rest) =>
      match rest.dropWhile isJsonWs with
      | ':' :: rest2 =>
        match parseJString rest2 with
        | none => none
        | some (v, rest3) =>
          match rest3.dropWhile isJsonWs with
          | ',' :: rest4 =>
            (parseMembers fuel rest4).map
              (fun p => ((String.mk k, String.mk v) :: p.1, p.2))
          | rest4 => some ([(String.mk k, String.mk v)], rest4)
      | _ => none

/-- Parse a whole flat JSON object with string keys and string values. -/
def parseFlatObject (s : List Char) : Option (List (String × String)) :=
  match s.dropWhile isJsonWs with
  | '{' :: rest =>
    match rest.dropWhile isJsonWs with
    | '}' :: rest2 => if rest2.dropWhile isJsonWs = [] then some [] else none
    | _ =>
      match parseMembers s.length rest with
      | some (kvs, rest2) =>
        match rest2 with
        | '}' :: rest3 => if rest3.dropWhile isJsonWs = [] then some kvs else none
        | _ => none
      | none => none
  | _ => none

/-- Modelled from the spec: the `final` branch of `handleSendMessage` calls
the host's `JSON.parse` — external code, not part of this repository — and
keeps `parsed.final_prompt` when it is truthy.  Modelled here for flat JSON
objects whose keys and values are escape-free strings; on anything else it
returns `none`, in which case the raw response text is kept, matching the
source's `catch {}` branch.  An empty `final_prompt` is falsy in JS, hence
also `none`. -/
def jsonFinalPrompt (s : String) : Option String :=
  match parseFlatObject s.data with
  | some kvs =>
    match kvs.lookup "final_prompt" with
    | some v => if v = "" then none else some v
    | none => none
  | none => none

theorem getContent_foldl_append_covered (us fs s : List NamedFile) (n : String)
    (hcover : ∀ u ∈ us, ∃ v ∈ fs, v.name = u.name) :
    getContent ((us ++ fs).foldl mergeYaml s) n = getContent (fs.foldl mergeYaml s) n := by
  rw [getContent_foldl_mergeYaml, getContent_foldl_mergeYaml,
    List.reverse_append, List.find?_append]
  cases hf : fs.reverse.find? (fun u => u.name == n) with
  | some v => simp [Option.orElse]
  | none =>
    have hus : us.reverse.find? (fun u => u.name == n) = none := by
      rw [List.find?_eq_none]
      intro u hu hbeq
      have hn : u.name = n := by simpa using hbeq
      obtain ⟨v, hv, hvn⟩ := hcover u (by simpa using hu)
      have hnone := List.find?_eq_none.mp hf v (by simpa using hv)
      simp [hvn, hn] at hnone
    simp [Option.orElse, hus, hf]

/-- C2 amended: replaying a well-formed event sequence through the streaming
handler and its terminal payload through the non-streaming branch yields the
same stored content for every artifact name, provided the final event's
`yaml_files` cover every name updated mid-stream; but the appended assistant
messages agree only up to `final_prompt` extraction — the streaming branch
applies it, the non-streaming branch appends the raw response text. -/
theorem streaming_vs_direct (parseFP : String → Option String) (st : ClientState)
    (pre : List StreamEvent) (r : String) (files : List NamedFile) (cid : String)
    (hpre : ∀ e ∈ pre, isFinalEvt e = false)
    (hcover : ∀ u ∈ allUpdates pre, ∃ v ∈ files, v.name = u.name) :
    (∀ n, getContent (runStream parseFP st (pre ++ [.finalEvt r files cid])).yamlFiles n
        = getContent (applyNonStreaming st ⟨r, files, cid⟩).yamlFiles n)
    ∧ (runStream parseFP st (pre ++ [.finalEvt r files cid])).appended
        = st.appended ++ [(parseFP r).getD r]
    ∧ (applyNonStreaming st ⟨r, files, cid⟩).appended = st.appended ++ [r] := by
  refine ⟨fun n => ?_, ?_, rfl⟩
  · rw [runStream_yamlFiles]
    have hupd : allUpdates (pre ++ [.finalEvt r files cid]) = allUpdates pre ++ files := by
      simp [allUpdates, eventUpdates]
    rw [hupd]
    exact getContent_foldl_append_covered _ _ _ _ hcover
  · have happ := runStream_appended parseFP st pre hpre
    rw [runStream] at happ ⊢
    rw [List.foldl_append, List.foldl_cons, List.foldl_nil]
    simp only [applyStreamEvent, happ]
    cases h : parseFP r <;> simp [Option.getD]

theorem streaming_vs_direct_witness :
    (∀ e ∈ [StreamEvent.statusEvt "s", StreamEvent.agentsYaml ⟨"agents.yaml", "a1"⟩],
        isFinalEvt e = false)
    ∧ (∀ u ∈ allUpdates [StreamEvent.statusEvt "s", StreamEvent.agentsYaml ⟨"agents.yaml", "a1"⟩],
        ∃ v ∈ [NamedFile.mk "agents.yaml" "a2"], v.name = u.name)
    ∧ ((∀ n, getContent (runStream jsonFinalPrompt initialClientState
          ([StreamEvent.statusEvt "s", StreamEvent.agentsYaml ⟨"agents.yaml", "a1"⟩]
            ++ [.finalEvt "ok" [⟨"agents.yaml", "a2"⟩] "c"])).yamlFiles n
        = getContent (applyNonStreaming initialClientState
            ⟨"ok", [⟨"agents.yaml", "a2"⟩], "c"⟩).yamlFiles n)
    ∧ (runStream jsonFinalPrompt initialClientState
          ([StreamEvent.statusEvt "s", StreamEvent.agentsYaml ⟨"agents.yaml", "a1"⟩]
            ++ [.finalEvt "ok" [⟨"agents.yaml", "a2"⟩] "c"])).appended
        = initialClientState.appended ++ [(jsonFinalPrompt "ok").getD "ok"]
    ∧ (applyNonStreaming initialClientState
          ⟨"ok", [⟨"agents.yaml", "a2"⟩], "c"⟩).appended
        = initialClientState.appended ++ ["ok"]) :=
  ⟨by decide, by decide,
   streaming_vs_direct jsonFinalPrompt initialClientState
     [StreamEvent.statusEvt "s", StreamEvent.agentsYaml ⟨"agents.yaml", "a1"⟩]
     "ok" [⟨"agents.yaml", "a2"⟩] "c" (by decide) (by decide)⟩

/-- C2 counterexample: for the well-formed sequence consisting of the single
final event whose response text is a JSON object with a truthy
`final_prompt`, the streaming path appends the extracted prompt while the
non-streaming path appends the raw response text — the two paths do not
yield an identical appended assistant message. -/
theorem streaming_vs_direct_counterexample :
    (runStream jsonFinalPrompt initialClientState
        [StreamEvent.finalEvt "\x7b\"final_prompt\": \"hi\"\x7d" [] "c1"]).appended
      ≠ (applyNonStreaming initialClientState
          (ChatResponse.mk "\x7b\"final_prompt\": \"hi\"\x7d" [] "c1")).appended := by
  decide

/-! ### `sendMessage` and its fallback (`src/src/services/api.ts`) -/

/-- JS `\s`-style whitespace on the ASCII range (Unicode space classes beyond
ASCII are not modelled). -/
def jsWs (c : Char) : Bool :=
  c = ' ' || c = '\t' || c = '\n' || c = '\r' || c = Char.ofNat 11 || c = Char.ofNat 12

/-- JS `String.prototype.trim`. -/
def jsTrimL (s : List Char) : List Char :=
  ((s.dropWhile jsWs).reverse.dropWhile jsWs).reverse

/-- The global regex replace `/```yaml\n?|\n?```/g → ''` of
`formatYamlContent`: a left-to-right scan, at each position trying the first
alternative (greedy optional `\n`) and then the second. -/
def stripCodeFence : List Char → List Char
  | [] => []
  | c :: rest =>
    if ("```yaml\n".data).isPrefixOf (c :: rest) then stripCodeFence ((c :: rest).drop 8)
    else if ("```yaml".data).isPrefixOf (c :: rest) then stripCodeFence ((c :: rest).drop 7)
    else if ("\n```".data).isPrefixOf (c :: rest) then stripCodeFence ((c :: rest).drop 4)
    else if ("```".data).isPrefixOf (c :: rest) then stripCodeFence ((c :: rest).drop 3)
    else c :: stripCodeFence rest
  termination_by s => s.length
  decreasing_by all_goals (simp [List.length_drop] <;> omega)

/-- `formatYamlContent` from `src/src/services/api.ts` lines 415-428: strip
markdown code fences, trim, and guarantee a trailing newline. -/
def formatYamlContent (content : String) : String :=
  let formatted := String.mk (jsTrimL (stripCodeFence content.data))
  if formatted.endsWith "\n" then formatted else formatted ++ "\n"

/-- JS `String.prototype.toLowerCase` (ASCII behaviour). -/
def jsToLower (s : String) : String := String.mk (s.data.map Char.toLower)

/-- Substring occurrence test on character lists. -/
def containsSub (s pat : List Char) : Bool :=
  match s with
  | [] => pat.isEmpty
  | _ :: rest => pat.isPrefixOf s || containsSub rest pat

/-- JS `String.prototype.includes`. -/
def jsIncludes (s sub : String) : Bool := containsSub s.data sub.data

def hasAgentKeyword (ml : String) : Bool :=
  jsIncludes ml "agent" || jsIncludes ml "openai" || jsIncludes ml "gpt"

def hasWorkflowKeyword (ml : String) : Bool :=
  jsIncludes ml "workflow" || jsIncludes ml "step" || jsIncludes ml "process"

def agentsFallback (message : String) : NamedFile :=
  ⟨"agents.yaml",
   "# Agents configuration generated from conversation\nagents:\n  example_agent:\n    type: openai\n    config:\n      model: gpt-4\n      api_key: ${OPENAI_API_KEY}\n      temperature: 0.7\n    description: \"Agent created based on: "
     ++ message ++ "\"\n"⟩

def workflowFallback (message : String) : NamedFile :=
  ⟨"workflow.yaml",
   "# Workflow configuration generated from conversation\nworkflow:\n  name: \"Generated Workflow\"\n  description: \"Workflow created based on: "
     ++ message
     ++ "\"\n  steps:\n    - name: \"example_step\"\n      agent: \"example_agent\"\n      input:\n        prompt: \"Process the request\"\n"⟩

def defaultAgentsYaml : NamedFile :=
  ⟨"agents.yaml",
   "# Agents configuration will be generated here\nagents:\n  # Your agents will appear here\n  # Example:\n  # example_agent:\n  #   type: openai\n  #   config:\n  #     model: gpt-4\n  #     api_key: ${OPENAI_API_KEY}\n"⟩

def defaultWorkflowYaml : NamedFile :=
  ⟨"workflow.yaml",
   "# Workflow configuration will be generated here\nworkflow:\n  # Your workflow will appear here\n  # Example:\n  # name: \"My Workflow\"\n  # steps:\n  #   - name: \"process_request\"\n  #     agent: \"example_agent\"\n"⟩

/-- `getFallbackResponse` from `src/src/services/api.ts` lines 430-505:
keyword-derived template YAML files and a fixed `fallback-session` chat id. -/
def getFallbackResponse (message : String) : ChatResponse :=
  let messageLower := jsToLower message
  let yamlFiles :=
    (if hasAgentKeyword messageLower then [agentsFallback message] else [])
      ++ (if hasWorkflowKeyword messageLower then [workflowFallback message] else [])
  let yamlFiles := if yamlFiles.length = 0 then [defaultAgentsYaml, defaultWorkflowYaml] else yamlFiles
  { response := "I understand you want to: \"" ++ message
      ++ "\". I'll help you build the appropriate Maestro configuration."
    yaml_files := yamlFiles
    chat_id := "fallback-session" }

/-- Outcome of the `fetch` call inside `sendMessage`: the promise rejects
(network error), or a response arrives with an ok / non-ok status and a JSON
body of the server's `{response, yaml_files, chat_id}` shape. -/
inductive FetchResult where
  | netError
  | response (ok : Bool) (data : ChatResponse)
  deriving DecidableEq

def fetchFails : FetchResult → Bool
  | .netError => true
  | .response ok _ => !ok

/-- `sendMessage` from `src/src/services/api.ts` lines 71-109: a non-ok
status throws into the same `catch` as a network error, and the `catch`
returns `getFallbackResponse` instead of re-throwing; on success the yaml
files are piped through `formatYamlContent`.  (The `currentChatId`
bookkeeping is not modelled.) -/
def sendMessage (message : String) (fetch : FetchResult) : ChatResponse :=
  match fetch with
  | .netError => getFallbackResponse message
  | .response ok data =>
    if ok then
      { response := data.response
        yaml_files := data.yaml_files.map (fun f => { f with content := formatYamlContent f.content })
        chat_id := data.chat_id }
    else getFallbackResponse message

/-- C10: `sendMessage` is total — whenever the HTTP request fails or returns
a non-OK status it resolves with the locally synthesized fallback response,
whose chat id is the literal `fallback-session` and whose files are the
keyword-derived templates (a nonempty set of `agents.yaml` /
`workflow.yaml` entries). -/
theorem sendMessage_never_rejects (m : String) (f : FetchResult)
    (h : fetchFails f = true) :
    sendMessage m f = getFallbackResponse m
    ∧ (getFallbackResponse m).chat_id = "fallback-session"
    ∧ (getFallbackResponse m).yaml_files ≠ []
    ∧ ∀ y ∈ (getFallbackResponse m).yaml_files,
        y.name = "agents.yaml" ∨ y.name = "workflow.yaml" := by
  refine ⟨?_, rfl, ?_, ?_⟩
  · cases f with
    | netError => rfl
    | response ok data =>
      simp only [fetchFails, Bool.not_eq_true'] at h
      simp [sendMessage, h]
  · by_cases ha : hasAgentKeyword (jsToLower m) <;>
      by_cases hw : hasWorkflowKeyword (jsToLower m) <;>
        simp [getFallbackResponse, ha, hw]
  · intro y hy
    by_cases ha : hasAgentKeyword (jsToLower m) <;>
      by_cases hw : hasWorkflowKeyword (jsToLower m) <;>
        simp only [getFallbackResponse, ha, hw, if_true, if_false] at hy <;>
          first
            | (simp at hy;
               rcases hy with h1 | h1 <;>
                 simp [h1, agentsFallback, workflowFallback, defaultAgentsYaml, defaultWorkflowYaml])
            | (simp at hy;
               simp [hy, agentsFallback, workflowFallback, defaultAgentsYaml, defaultWorkflowYaml])

theorem sendMessage_never_rejects_witness :
    fetchFails FetchResult.netError = true
    ∧ (sendMessage "hello" FetchResult.netError = getFallbackResponse "hello"
    ∧ (getFallbackResponse "hello").chat_id = "fallback-session"
    ∧ (getFallbackResponse "hello").yaml_files ≠ []
    ∧ ∀ y ∈ (getFallbackResponse "hello").yaml_files,
        y.name = "agents.yaml" ∨ y.name = "workflow.yaml") :=
  ⟨by decide, sendMessage_never_rejects "hello" FetchResult.netError (by decide)⟩

/-! ### The streaming line decoder of `streamGenerateMessage`
(`src/src/services/api.ts` lines 179-215) -/

/-- Split a character stream at every newline; the final segment is the
partial line after the last newline (JS `split('\n')` semantics: the result
is always nonempty). -/
def splitOnNl : List Char → List (List Char)
  | [] => [[]]
  | c :: rest =>
    if c = '\n' then [] :: splitOnNl rest
    else
      match splitOnNl rest with
      | [] => [[c]]
      | l :: ls => (c :: l) :: ls

theorem splitOnNl_ne_nil (s : List Char) : splitOnNl s ≠ [] := by
  cases s with
  | nil => simp [splitOnNl]
  | cons c rest =>
    by_cases h : c = '\n'
    · simp [splitOnNl, h]
    · simp only [splitOnNl, if_neg h]
      cases splitOnNl rest <;> simp

/-- `buffer.indexOf('\n')` followed by the slices: the first complete line
and the rest of the buffer, or `none` when the buffer holds no newline. -/
def splitFirstLine : List Char → Option (List Char × List Char)
  | [] => none
  | c :: rest =>
    if c = '\n' then some ([], rest)
    else (splitFirstLine rest).map (fun p => (c :: p.1, p.2))

theorem splitFirstLine_eq_some (s l r : List Char)
    (h : splitFirstLine s = some (l, r)) :
    s = l ++ '\n' :: r ∧ '\n' ∉ l := by
  induction s generalizing l r with
  | nil => simp [splitFirstLine] at h
  | cons c rest ih =>
    by_cases hc : c = '\n'
    · rw [splitFirstLine, if_pos hc] at h
      obtain ⟨rfl, rfl⟩ : l = [] ∧ rest = r := by simpa using h
      simp [hc]
    · rw [splitFirstLine, if_neg hc] at h
      rw [Option.map_eq_some'] at h
      obtain ⟨⟨l', r'⟩, hsp, heq⟩ := h
      simp only [Prod.mk.injEq] at heq
      obtain ⟨rfl, rfl⟩ := heq
      obtain ⟨hshape, hnot⟩ := ih l' r' hsp
      constructor
      · rw [hshape]
        rfl
      · simp [hnot, Ne.symm hc]

theorem splitFirstLine_eq_none (s : List Char)
    (h : splitFirstLine s = none) : splitOnNl s = [s] := by
  induction s with
  | nil => rfl
  | cons c rest ih =>
    by_cases hc : c = '\n'
    · rw [splitFirstLine, if_pos hc] at h
      simp at h
    · rw [splitFirstLine, if_neg hc] at h
      rw [Option.map_eq_none'] at h
      rw [splitOnNl, if_neg hc, ih h]

theorem splitOnNl_line_append (l z : List Char) (h : '\n' ∉ l) :
    splitOnNl (l ++ '\n' :: z) = l :: splitOnNl z := by
  induction l with
  | nil => simp [splitOnNl]
  | cons c l' ih =>
    have hc : c ≠ '\n' := fun hc => h (hc ▸ List.mem_cons_self c l')
    have hl' : '\n' ∉ l' := fun hm => h (List.mem_cons_of_mem _ hm)
    rw [List.cons_append, splitOnNl, if_neg hc, ih hl']

set_option linter.unusedVariables false in
/-- The inner `while` loop of the stream reader: repeatedly cut the buffer at
the first newline; returns the complete lines in order and the remaining
(newline-free) buffer. -/
def drainLines (buffer : List Char) : List (List Char) × List Char :=
  match h : splitFirstLine buffer with
  | none => ([], buffer)
  | some (l, rest) =>
    let p := drainLines rest
    (l :: p.1, p.2)
  termination_by buffer.length
  decreasing_by
    have := (splitFirstLine_eq_some buffer l rest h).1
    simp [this]
    omega

theorem drainLines_spec (b : List Char) :
    splitFirstLine (drainLines b).2 = none
    ∧ ∀ y, splitOnNl (b ++ y) = (drainLines b).1 ++ splitOnNl ((drainLines b).2 ++ y) := by
  rw [drainLines]
  cases h : splitFirstLine b with
  | none => exact ⟨h, fun y => rfl⟩
  | some p =>
    obtain ⟨l, rest⟩ := p
    obtain ⟨hshape, hnl⟩ := splitFirstLine_eq_some b l rest h
    have ih := drainLines_spec rest
    refine ⟨ih.1, fun y => ?_⟩
    rw [hshape, List.append_assoc, List.cons_append, splitOnNl_line_append l _ hnl, ih.2 y]
    rfl
  termination_by b.length
  decreasing_by
    have := (splitFirstLine_eq_some b l rest h).1
    simp [this]
    omega

/-- Per-line handling of the decoder: trim, skip empty lines, and attempt
`JSON.parse` — a parse failure contributes nothing (the `catch` only logs).
`parse` stands for the host's `JSON.parse` into a `StreamEvent`. -/
def lineEvents (parse : List Char → Option StreamEvent) (l : List Char) :
    List StreamEvent :=
  let t := jsTrimL l
  if t = [] then []
  else
    match parse t with
    | some e => [e]
    | none => []

/-- The chunk loop of `streamGenerateMessage`: append the decoded chunk to
the buffer, drain and handle all complete lines; at end of stream the final
partial line is trimmed, attempted, and silently discarded on failure. -/
def processChunksAux (parse : List Char → Option StreamEvent) (buffer : List Char) :
    List (List Char) → List StreamEvent
  | [] => lineEvents parse buffer
  | c :: cs =>
    let p := drainLines (buffer ++ c)
    p.1.flatMap (lineEvents parse) ++ processChunksAux parse p.2 cs

/-- Events delivered by the decoding loop for a given chunked byte stream. -/
def processChunks (parse : List Char → Option StreamEvent)
    (chunks : List (List Char)) : List StreamEvent :=
  processChunksAux parse [] chunks

/-- Reference decoder: split the whole stream at newlines and handle every
segment (including the final partial one) independently. -/
def decodeStream (parse : List Char → Option StreamEvent) (s : List Char) :
    List StreamEvent :=
  (splitOnNl s).flatMap (lineEvents parse)

theorem processChunksAux_eq (parse : List Char → Option StreamEvent)
    (chunks : List (List Char)) :
    ∀ buffer, splitFirstLine buffer = none →
      processChunksAux parse buffer chunks = decodeStream parse (buffer ++ chunks.flatten) := by
  induction chunks with
  | nil =>
    intro buffer hb
    rw [processChunksAux, decodeStream, List.flatten_nil, List.append_nil,
      splitFirstLine_eq_none buffer hb]
    simp
  | cons c cs ih =>
    intro buffer hb
    obtain ⟨h1, h2⟩ := drainLines_spec (buffer ++ c)
    rw [processChunksAux, ih _ h1, decodeStream, decodeStream, List.flatten_cons,
      ← List.append_assoc, h2 cs.flatten, List.flatMap_append]

/-- C3: the decoder is chunking-independent — for every division of the byte
stream into chunks it emits exactly the events of the trimmed nonempty
newline-separated segments of the whole stream that parse, in order; a
segment that fails to parse contributes nothing (and aborts nothing), and
the final partial segment is attempted like any other and silently dropped
when unparsable. -/
theorem decoder_resilient (parse : List Char → Option StreamEvent)
    (chunks : List (List Char)) :
    processChunks parse chunks = decodeStream parse chunks.flatten := by
  rw [processChunks, processChunksAux_eq parse chunks [] rfl]
  rfl

/-! ### Streaming transport failure and fallback -/

/-- How the streaming attempt of `streamGenerateMessage` can go: the body is
read to completion as a list of chunks, or the transport fails before any
event is decoded — the fetch rejects, the status is non-OK (the code throws
`HTTP error!`), or the response has no body (`No response body for streaming
request`). -/
inductive StreamTransport where
  | ok (chunks : List (List Char))
  | netError
  | badStatus (status : Nat)
  | noBody
  deriving DecidableEq

def transportFails : StreamTransport → Bool
  | .ok _ => false
  | _ => true

/-- Observable outcome of one `streamGenerateMessage` call: the events
delivered to `handlers.onEvent` in order, whether `onError` fired, whether
`onComplete` fired, and how many times the fallback `sendMessage` was
issued. -/
structure StreamRun where
  events : List StreamEvent
  errored : Bool
  completed : Bool
  fallbackCalls : Nat
  deriving DecidableEq, Repr

/-- `streamGenerateMessage` from `src/src/services/api.ts` lines 159-227.
On success the decoded events are delivered and `onComplete` fires.  On any
failure the `catch` fires `onError`, re-issues the same instruction once
through `sendMessage` (whose own fetch outcome is `fallbackFetch`), and
synthesizes a `final` event from its payload followed by a `done` event,
then `onComplete`.  (`sendMessage` is total, so the inner `catch (_)` is
unreachable; the `currentChatId` bookkeeping is not modelled.) -/
def streamGenerateMessageRun (parse : List Char → Option StreamEvent)
    (message : String) (t : StreamTransport) (fallbackFetch : FetchResult) : StreamRun :=
  match t with
  | .ok chunks => ⟨processChunks parse chunks, false, true, 0⟩
  | _ =>
    let fb := sendMessage message fallbackFetch
    ⟨[.finalEvt fb.response fb.yaml_files fb.chat_id, .doneEvt], true, true, 1⟩

/-- C4: whenever the streaming transport fails before a terminal event is
observed, the client falls back to the whole-request `sendMessage` path,
re-issuing the same instruction exactly once, and delivers to the same
handler a synthesized `final` event carrying that path's payload followed by
a `done` event, then completes. -/
theorem stream_fallback (parse : List Char → Option StreamEvent)
    (m : String) (t : StreamTransport) (ff : FetchResult)
    (h : transportFails t = true) :
    streamGenerateMessageRun parse m t ff =
      ⟨[.finalEvt (sendMessage m ff).response (sendMessage m ff).yaml_files
          (sendMessage m ff).chat_id, .doneEvt],
        true, true, 1⟩ := by
  cases t with
  | ok chunks => simp [transportFails] at h
  | netError => rfl
  | badStatus s => rfl
  | noBody => rfl

theorem stream_fallback_witness :
    transportFails StreamTransport.netError = true
    ∧ streamGenerateMessageRun (fun _ => none) "hi" StreamTransport.netError FetchResult.netError =
      ⟨[.finalEvt (sendMessage "hi" FetchResult.netError).response
          (sendMessage "hi" FetchResult.netError).yaml_files
          (sendMessage "hi" FetchResult.netError).chat_id, .doneEvt],
        true, true, 1⟩ :=
  ⟨by decide, stream_fallback (fun _ => none) "hi" StreamTransport.netError
    FetchResult.netError (by decide)⟩

/-! ### The bounded async-result wait loop (`src/unnamed/part_002` lines
206-221, `getAsyncResult` from `src/src/services/api.ts` lines 130-157) -/

/-- The JSON body of one poll of `/api/supervisor-result/{requestId}`. -/
inductive PollBody where
  | processing
  | errorPayload (msg : String)
  | payload (resp : ChatResponse)
  deriving DecidableEq

/-- One poll's outcome at the HTTP level. -/
inductive ServerPoll where
  | httpFail (status : Nat)
  | body (b : PollBody)
  deriving DecidableEq

/-- The distinct throw sites of the wait loop: the fixed
`Request timed out after 2 minutes` timeout throw in `handleSendMessage`,
the `HTTP error!` throw, and the `data.error` payload throw in
`getAsyncResult`. -/
inductive WaitError where
  | timeoutErr
  | httpError (status : Nat)
  | execError (msg : String)
  deriving DecidableEq, Repr

/-- `getAsyncResult` (`src/src/services/api.ts` lines 130-157): non-OK
throws; a `processing` body resolves `null`; an error payload throws with
the server's message; otherwise the payload is returned with its files piped
through `formatYamlContent`. -/
def getAsyncResult : ServerPoll → Except WaitError (Option ChatResponse)
  | .httpFail s => .error (.httpError s)
  | .body .processing => .ok none
  | .body (.errorPayload m) => .error (.execError m)
  | .body (.payload r) =>
      .ok (some { r with
        yaml_files := r.yaml_files.map
          (fun f => { f with content := formatYamlContent f.content }) })

/-- The externally visible calls the wait loop can make.  `resultPoll i` is
the GET of the result endpoint on attempt `i`; `cancelRequest` models the
cancellation operation of the spec's AsyncJobManager (§4.2) — the client
code has no path that issues it. -/
inductive ClientCall where
  | resultPoll (attempt : Nat)
  | cancelRequest
  deriving DecidableEq, Repr

structure WaitOutcome where
  result : Except WaitError ChatResponse
  calls : List ClientCall
  deriving Repr

/-- The wait loop of `handleSendMessage` in `src/unnamed/part_002` lines
209-221: up to `maxAttempts = 120` rounds of a one-second sleep followed by
`getAsyncResult`; a `null` result keeps looping; a throw propagates; when
the budget is exhausted without a response the loop exits and
`throw new Error('Request timed out after 2 minutes')`.  `oracle i` is the
server's answer to the `i`-th poll. -/
def waitFrom (oracle : Nat → ServerPoll) : Nat → Nat → WaitOutcome
  | 0, _ => ⟨.error .timeoutErr, []⟩
  | fuel + 1, i =>
    match getAsyncResult (oracle i) with
    | .error e => ⟨.error e, [.resultPoll i]⟩
    | .ok none =>
      let rest := waitFrom oracle fuel (i + 1)
      ⟨rest.result, .resultPoll i :: rest.calls⟩
    | .ok (some r) => ⟨.ok r, [.resultPoll i]⟩

def waitForResult (oracle : Nat → ServerPoll) : WaitOutcome :=
  waitFrom oracle 120 0

theorem waitFrom_all_processing (oracle : Nat → ServerPoll) :
    ∀ fuel i, (∀ j, j < fuel → oracle (i + j) = .body .processing) →
      waitFrom oracle fuel i
        = ⟨.error .timeoutErr, (List.range' i fuel).map ClientCall.resultPoll⟩ := by
  intro fuel
  induction fuel with
  | zero => intro i _; rfl
  | succ f ih =>
    intro i h
    have h0 : oracle i = .body .processing := by simpa using h 0 (Nat.succ_pos f)
    have hrec := ih (i + 1) (fun j hj => by
      have := h (j + 1) (Nat.succ_lt_succ hj)
      simpa [Nat.add_assoc, Nat.add_comm 1 j] using this)
    rw [waitFrom, h0]
    simp only [getAsyncResult, hrec, List.range'_succ, List.map_cons]

/-- C6: if 120 polls all report `processing`, the wait loop surfaces the
timeout error — a value distinct from every execution error produced by an
error payload — and its only outward effects are the 120 result polls: no
cancellation of the underlying job is issued. -/
theorem wait_timeout_distinct (oracle : Nat → ServerPoll)
    (h : ∀ j, j < 120 → oracle j = .body .processing) :
    (waitForResult oracle).result = .error .timeoutErr
    ∧ (waitForResult oracle).calls = (List.range' 0 120).map ClientCall.resultPoll
    ∧ ClientCall.cancelRequest ∉ (waitForResult oracle).calls
    ∧ (∀ m, WaitError.timeoutErr ≠ WaitError.execError m)
    ∧ (∀ s, WaitError.timeoutErr ≠ WaitError.httpError s) := by
  have := waitFrom_all_processing oracle 120 0 (fun j hj => by simpa using h j hj)
  rw [waitForResult, this]
  refine ⟨rfl, rfl, ?_, ?_, ?_⟩
  · simp
  · intro m hne
    cases hne
  · intro s hne
    cases hne

theorem wait_timeout_distinct_witness :
    (∀ j, j < 120 → (fun _ => ServerPoll.body PollBody.processing) j = .body .processing)
    ∧ ((waitForResult (fun _ => ServerPoll.body PollBody.processing)).result
        = .error .timeoutErr
    ∧ (waitForResult (fun _ => ServerPoll.body PollBody.processing)).calls
        = (List.range' 0 120).map ClientCall.resultPoll
    ∧ ClientCall.cancelRequest ∉ (waitForResult (fun _ => ServerPoll.body PollBody.processing)).calls
    ∧ (∀ m, WaitError.timeoutErr ≠ WaitError.execError m)
    ∧ (∀ s, WaitError.timeoutErr ≠ WaitError.httpError s)) :=
  ⟨fun _ _ => rfl, wait_timeout_distinct (fun _ => ServerPoll.body PollBody.processing)
    (fun _ _ => rfl)⟩

/-! ### `startStatusPolling` (`src/src/services/api.ts` lines 508-542)

The polling loop is asynchronous: `stop()` (the returned closure setting
`isPolling = false`) can interleave at the `await` points of `poll()`.  The
loop is modelled as a small-step machine over its program counter:

  * `checkFlag`    — the `if (!isPolling) return` entry guard;
  * `fetchDeliver` — `getStatusUpdates` resolving with an array `us`,
    immediately followed by `if (us.length > 0) onUpdate(us)` with **no**
    re-check of `isPolling` in between;
  * `scheduleNext` — `if (isPolling) setTimeout(poll, 100)`;
  * `stopCall`     — the stop closure, possible at any point.

The fixed 100 ms interval and the `catch` around a failed fetch (which only
logs and still schedules the next poll) are not modelled. -/

structure StatusUpdate where
  message : String
  level : String
  timestamp : String
  deriving DecidableEq, Repr

inductive PollerPc where
  | atCheck
  | beforeDeliver
  | afterDeliver
  | halted
  deriving DecidableEq, Repr

structure PollerState where
  polling : Bool
  pc : PollerPc
  deriving DecidableEq, Repr

inductive PollerAct where
  | checkFlag
  | fetchDeliver (updates : List StatusUpdate)
  | scheduleNext
  | stopCall
  deriving DecidableEq, Repr

/-- One step of the polling loop; `none` when the action is not enabled at
the current program counter.  The second component lists the `onUpdate`
callbacks the step performs, each carrying the delivered array verbatim. -/
def pollerStep : PollerState → PollerAct → Option (PollerState × List (List StatusUpdate))
  | ⟨p, .atCheck⟩, .checkFlag => some (⟨p, if p then .beforeDeliver else .halted⟩, [])
  | ⟨p, .beforeDeliver⟩, .fetchDeliver us =>
      some (⟨p, .afterDeliver⟩, if 0 < us.length then [us] else [])
  | ⟨p, .afterDeliver⟩, .scheduleNext => some (⟨p, if p then .atCheck else .halted⟩, [])
  | ⟨_, pc⟩, .stopCall => some (⟨false, pc⟩, [])
  | _, _ => none

/-- Run a sequence of actions, accumulating the delivered callbacks. -/
def runPoller : PollerState → List PollerAct → Option (PollerState × List (List StatusUpdate))
  | s, [] => some (s, [])
  | s, a :: acts =>
    match pollerStep s a with
    | none => none
    | some (s', out) =>
      match runPoller s' acts with
      | none => none
      | some (s'', outs) => some (s'', out ++ outs)

/-- The canonical undisturbed trace: one full poll cycle per endpoint
response. -/
def pollTrace : List (List StatusUpdate) → List PollerAct
  | [] => []
  | r :: rs => .checkFlag :: .fetchDeliver r :: .scheduleNext :: pollTrace rs

/-- C5 amended, part of the supporting development: an undisturbed polling
run delivers exactly the nonempty endpoint responses, verbatim and in
order — the client performs no incremental slicing of its own, and a poll
observing an empty array performs no callback. -/
theorem runPoller_pollTrace (rs : List (List StatusUpdate)) :
    runPoller ⟨true, .atCheck⟩ (pollTrace rs)
      = some (⟨true, .atCheck⟩, rs.filter (fun r => decide (0 < r.length))) := by
  induction rs with
  | nil => rfl
  | cons r rs ih =>
    simp only [pollTrace, runPoller, pollerStep, if_true, ih, List.filter_cons]
    by_cases h : 0 < r.length
    · simp [h]
    · simp [h]

theorem runPoller_cons_eq (s : PollerState) (a : PollerAct) (acts : List PollerAct)
    (s1 : PollerState) (out : List (List StatusUpdate))
    (hstep : pollerStep s a = some (s1, out)) :
    runPoller s (a :: acts) = (runPoller s1 acts).map (fun p => (p.1, out ++ p.2)) := by
  simp only [runPoller, hstep]
  cases hr : runPoller s1 acts with
  | none => rfl
  | some p => cases p; rfl

theorem runPoller_cons_none (s : PollerState) (a : PollerAct) (acts : List PollerAct)
    (hstep : pollerStep s a = none) :
    runPoller s (a :: acts) = none := by
  rw [runPoller, hstep]

/-- From a stopped state that is not mid-poll, every enabled step delivers
nothing and stays stopped and not mid-poll. -/
theorem pollerStep_stopped (pc : PollerPc) (a : PollerAct)
    (hpc : pc ≠ PollerPc.beforeDeliver) (s1 : PollerState)
    (out : List (List StatusUpdate))
    (h : pollerStep ⟨false, pc⟩ a = some (s1, out)) :
    out = [] ∧ s1.polling = false ∧ s1.pc ≠ PollerPc.beforeDeliver := by
  cases pc with
  | beforeDeliver => exact absurd rfl hpc
  | atCheck =>
    cases a with
    | checkFlag =>
      have : s1 = ⟨false, PollerPc.halted⟩ ∧ out = [] := by
        simpa [pollerStep] using h.symm
      obtain ⟨rfl, rfl⟩ := this
      exact ⟨rfl, rfl, by simp⟩
    | stopCall =>
      have : s1 = ⟨false, PollerPc.atCheck⟩ ∧ out = [] := by
        simpa [pollerStep] using h.symm
      obtain ⟨rfl, rfl⟩ := this
      exact ⟨rfl, rfl, by simp⟩
    | fetchDeliver us => simp [pollerStep] at h
    | scheduleNext => simp [pollerStep] at h
  | afterDeliver =>
    cases a with
    | scheduleNext =>
      have : s1 = ⟨false, PollerPc.halted⟩ ∧ out = [] := by
        simpa [pollerStep] using h.symm
      obtain ⟨rfl, rfl⟩ := this
      exact ⟨rfl, rfl, by simp⟩
    | stopCall =>
      have : s1 = ⟨false, PollerPc.afterDeliver⟩ ∧ out = [] := by
        simpa [pollerStep] using h.symm
      obtain ⟨rfl, rfl⟩ := this
      exact ⟨rfl, rfl, by simp⟩
    | fetchDeliver us => simp [pollerStep] at h
    | checkFlag => simp [pollerStep] at h
  | halted =>
    cases a with
    | stopCall =>
      have : s1 = ⟨false, PollerPc.halted⟩ ∧ out = [] := by
        simpa [pollerStep] using h.symm
      obtain ⟨rfl, rfl⟩ := this
      exact ⟨rfl, rfl, by simp⟩
    | fetchDeliver us => simp [pollerStep] at h
    | checkFlag => simp [pollerStep] at h
    | scheduleNext => simp [pollerStep] at h

theorem runPoller_stopped_quiet (acts : List PollerAct) :
    ∀ s : PollerState, s.polling = false → s.pc ≠ PollerPc.beforeDeliver →
      ∀ s' outs, runPoller s acts = some (s', outs) → outs = [] := by
  induction acts with
  | nil =>
    intro s _ _ s' outs h
    have : s = s' ∧ [] = outs := by simpa [runPoller] using h
    exact this.2.symm
  | cons a acts ih =>
    intro s hp hpc s' outs h
    obtain ⟨p, pc⟩ := s
    simp only at hp hpc
    subst hp
    cases hstep : pollerStep ⟨false, pc⟩ a with
    | none => rw [runPoller_cons_none _ _ _ hstep] at h; cases h
    | some q =>
      obtain ⟨s1, out⟩ := q
      obtain ⟨ho, hp1, hpc1⟩ := pollerStep_stopped pc a hpc s1 out hstep
      rw [runPoller_cons_eq _ _ _ _ _ hstep] at h
      cases hr : runPoller s1 acts with
      | none => rw [hr] at h; cases h
      | some p2 =>
        rw [hr] at h
        obtain ⟨s2, outs2⟩ := p2
        have h2 := ih s1 hp1 hpc1 s2 outs2 hr
        have : s2 = s' ∧ out ++ outs2 = outs := by simpa using h
        rw [← this.2, ho, h2]
        rfl

theorem runPoller_inflight_le_one (acts : List PollerAct) :
    ∀ s' outs, runPoller ⟨false, PollerPc.beforeDeliver⟩ acts = some (s', outs) →
      outs.length ≤ 1 := by
  induction acts with
  | nil =>
    intro s' outs h
    have : (⟨false, PollerPc.beforeDeliver⟩ : PollerState) = s' ∧ [] = outs := by
      simpa [runPoller] using h
    rw [← this.2]
    simp
  | cons a acts ih =>
    intro s' outs h
    cases a with
    | checkFlag =>
      rw [runPoller_cons_none ⟨false, PollerPc.beforeDeliver⟩ .checkFlag acts rfl] at h
      cases h
    | scheduleNext =>
      rw [runPoller_cons_none ⟨false, PollerPc.beforeDeliver⟩ .scheduleNext acts rfl] at h
      cases h
    | fetchDeliver us =>
      have hstep : pollerStep ⟨false, PollerPc.beforeDeliver⟩ (.fetchDeliver us)
          = some (⟨false, PollerPc.afterDeliver⟩, if 0 < us.length then [us] else []) := rfl
      rw [runPoller_cons_eq _ _ _ _ _ hstep] at h
      cases hr : runPoller ⟨false, PollerPc.afterDeliver⟩ acts with
      | none => rw [hr] at h; cases h
      | some p2 =>
        rw [hr] at h
        obtain ⟨s2, outs2⟩ := p2
        have h2 : outs2 = [] :=
          runPoller_stopped_quiet acts ⟨false, PollerPc.afterDeliver⟩ rfl (by simp)
            s2 outs2 hr
        have : s2 = s' ∧ (if 0 < us.length then [us] else []) ++ outs2 = outs := by
          simpa using h
        rw [← this.2, h2, List.append_nil]
        by_cases hu : 0 < us.length <;> simp [hu]
    | stopCall =>
      have hstep : pollerStep ⟨false, PollerPc.beforeDeliver⟩ .stopCall
          = some (⟨false, PollerPc.beforeDeliver⟩, []) := rfl
      rw [runPoller_cons_eq _ _ _ _ _ hstep] at h
      cases hr : runPoller ⟨false, PollerPc.beforeDeliver⟩ acts with
      | none => rw [hr] at h; cases h
      | some p2 =>
        rw [hr] at h
        obtain ⟨s2, outs2⟩ := p2
        have h2 := ih s2 outs2 hr
        have : s2 = s' ∧ [] ++ outs2 = outs := by simpa using h
        rw [← this.2]
        simpa using h2

/-- C5 amended: the client passes each endpoint response array to `onUpdate`
verbatim (so updates are never redelivered only if the endpoint itself
returns only undelivered updates), a poll observing an empty array performs
no callback, and once `stop()` has been invoked no new poll cycle begins —
at most the single poll already past its entry check delivers one more
callback. -/
theorem poller_contract :
    (∀ rs, runPoller ⟨true, .atCheck⟩ (pollTrace rs)
        = some (⟨true, .atCheck⟩, rs.filter (fun r => decide (0 < r.length))))
    ∧ (∀ acts (s : PollerState), s.polling = false → s.pc ≠ .beforeDeliver →
        ∀ s' outs, runPoller s acts = some (s', outs) → outs = [])
    ∧ (∀ acts s' outs, runPoller ⟨false, .beforeDeliver⟩ acts = some (s', outs) →
        outs.length ≤ 1) :=
  ⟨runPoller_pollTrace,
   fun acts s hp hpc => runPoller_stopped_quiet acts s hp hpc,
   fun acts => runPoller_inflight_le_one acts⟩

theorem poller_contract_witness :
    (runPoller ⟨true, .atCheck⟩
        (pollTrace [[⟨"m", "info", "t"⟩], []])
      = some (⟨true, .atCheck⟩,
          [[⟨"m", "info", "t"⟩], []].filter (fun r => decide (0 < r.length))))
    ∧ ((PollerState.mk false .atCheck).polling = false)
    ∧ ((PollerState.mk false .atCheck).pc ≠ .beforeDeliver)
    ∧ (runPoller ⟨false, .atCheck⟩ [.checkFlag] = some (⟨false, .halted⟩, []))
    ∧ (([] : List (List StatusUpdate)) = [])
    ∧ (([[⟨"m", "info", "t"⟩]] : List (List StatusUpdate)).length ≤ 1) :=
  ⟨poller_contract.1 [[⟨"m", "info", "t"⟩], []],
   rfl, by decide, by decide,
   poller_contract.2.1 [.checkFlag] ⟨false, .atCheck⟩ rfl (by decide)
     ⟨false, .halted⟩ [] (by decide),
   poller_contract.2.2 [.fetchDeliver [⟨"m", "info", "t"⟩]]
     ⟨false, .afterDeliver⟩ [[⟨"m", "info", "t"⟩]] (by decide)⟩

/-- C5 counterexample: a poll that has passed its entry check when `stop()`
is invoked still delivers its callback — the first run reaches the
post-stop state `⟨false, beforeDeliver⟩` having delivered nothing, and from
that state the pending fetch step delivers a nonempty callback, so a
callback does occur after `stop()`. -/
theorem poller_stop_counterexample :
    runPoller ⟨true, .atCheck⟩ [.checkFlag, .stopCall]
        = some (⟨false, .beforeDeliver⟩, [])
    ∧ runPoller ⟨false, .beforeDeliver⟩ [.fetchDeliver [⟨"m", "info", "t"⟩]]
        = some (⟨false, .afterDeliver⟩, [[⟨"m", "info", "t"⟩]])
    ∧ ([[StatusUpdate.mk "m" "info" "t"]] : List (List StatusUpdate)) ≠ [] := by
  refine ⟨by decide, by decide, by decide⟩

/-! ### The inline-edit serialization boundary (`src/src/components/YamlPanel.tsx`)

JS `String.prototype.replace` with a global literal-pattern regex scans left
to right: at each position, if the pattern matches it emits the replacement
and skips the pattern, otherwise it emits the character and advances.
`replaceAll` below implements exactly that (with a fuel argument so it
computes by kernel reduction; `replaceAll_cons_match` / `_nomatch` recover
the scan equations). -/

def replaceAllFuel (pat repl : List Char) : Nat → List Char → List Char
  | 0, s => s
  | _ + 1, [] => []
  | fuel + 1, c :: rest =>
    if pat.isPrefixOf (c :: rest) then
      repl ++ replaceAllFuel pat repl fuel ((c :: rest).drop pat.length)
    else
      c :: replaceAllFuel pat repl fuel rest

def replaceAll (pat repl s : List Char) : List Char :=
  replaceAllFuel pat repl s.length s

theorem replaceAllFuel_congr (pat repl : List Char) (hpat : pat ≠ []) :
    ∀ f1 f2 s, s.length ≤ f1 → s.length ≤ f2 →
      replaceAllFuel pat repl f1 s = replaceAllFuel pat repl f2 s := by
  intro f1
  induction f1 with
  | zero =>
    intro f2 s h1 _
    have : s = [] := List.length_eq_zero.mp (Nat.le_zero.mp h1)
    subst this
    cases f2 <;> rfl
  | succ f ih =>
    intro f2 s h1 h2
    cases s with
    | nil => cases f2 <;> rfl
    | cons c rest =>
      cases f2 with
      | zero => simp at h2
      | succ f2' =>
        have hplen : 0 < pat.length := List.length_pos.mpr hpat
        rw [replaceAllFuel, replaceAllFuel]
        by_cases hpre : pat.isPrefixOf (c :: rest)
        · rw [if_pos hpre, if_pos hpre]
          have hlen : ((c :: rest).drop pat.length).length ≤ f := by
            simp only [List.length_drop, List.length_cons]
            simp only [List.length_cons] at h1
            omega
          have hlen2 : ((c :: rest).drop pat.length).length ≤ f2' := by
            simp only [List.length_drop, List.length_cons]
            simp only [List.length_cons] at h2
            omega
          rw [ih f2' _ hlen hlen2]
        · rw [if_neg hpre, if_neg hpre]
          have hlen : rest.length ≤ f := by
            simp only [List.length_cons] at h1
            omega
          have hlen2 : rest.length ≤ f2' := by
            simp only [List.length_cons] at h2
            omega
          rw [ih f2' _ hlen hlen2]

theorem replaceAll_cons_match (pat repl : List Char) (hpat : pat ≠ [])
    (c : Char) (rest : List Char) (h : pat.isPrefixOf (c :: rest)) :
    replaceAll pat repl (c :: rest)
      = repl ++ replaceAll pat repl ((c :: rest).drop pat.length) := by
  have hplen : 0 < pat.length := List.length_pos.mpr hpat
  rw [replaceAll, replaceAll, List.length_cons, replaceAllFuel, if_pos h]
  congr 1
  apply replaceAllFuel_congr pat repl hpat
  · simp only [List.length_drop, List.length_cons]
    omega
  · exact Nat.le_refl _

theorem replaceAll_cons_nomatch (pat repl : List Char)
    (c : Char) (rest : List Char) (h : ¬ pat.isPrefixOf (c :: rest)) :
    replaceAll pat repl (c :: rest) = c :: replaceAll pat repl rest := by
  rw [replaceAll, replaceAll, List.length_cons, replaceAllFuel, if_neg h]

/-- The single-quote character (written via its code point). -/
def sq : Char := Char.ofNat 39

/-- The encode step of the inline editor (`YamlPanel.tsx` lines 275 and 320):
`textarea.value.replace(/\n/g, '\\n').replace(/'/g, "\\'").replace(/"/g, '\\"')`
— newlines become the two characters backslash-n, then single and double
quotes are backslash-escaped. -/
def encodeEdited (s : List Char) : List Char :=
  replaceAll ['"'] ['\\', '"'] (replaceAll [sq] ['\\', sq] (replaceAll ['\n'] ['\\', 'n'] s))

/-- `decodeEscaped` (`YamlPanel.tsx` lines 46-48):
`content.replace(/\\n/g, '\n').replace(/\\'/g, "'").replace(/\\"/g, '"')`. -/
def decodeEscaped (s : List Char) : List Char :=
  replaceAll ['\\', '"'] ['"'] (replaceAll ['\\', sq] [sq] (replaceAll ['\\', 'n'] ['\n'] s))

theorem replaceAll_single (a : Char) (r : List Char) (s : List Char) :
    replaceAll [a] r s = s.flatMap (fun c => if c = a then r else [c]) := by
  induction s with
  | nil => rfl
  | cons c rest ih =>
    by_cases h : c = a
    · subst h
      rw [replaceAll_cons_match [c] r (by simp) c rest (by simp [List.isPrefixOf])]
      simpa using congrArg (r ++ ·) ih
    · have hnp : ¬ ([a].isPrefixOf (c :: rest)) := by
        simp only [List.isPrefixOf, Bool.and_eq_true, beq_iff_eq]
        intro hc
        exact h hc.1.symm
      rw [replaceAll_cons_nomatch _ _ _ _ hnp]
      simp [h, ih]

theorem flatMap_assoc (l : List α) (f : α → List β) (g : β → List γ) :
    (l.flatMap f).flatMap g = l.flatMap (fun x => (f x).flatMap g) := by
  induction l with
  | nil => rfl
  | cons a t ih => simp [List.flatMap_cons, ih]

theorem flatMap_id_singleton (s : List Char) : s.flatMap (fun c => [c]) = s := by
  induction s with
  | nil => rfl
  | cons c rest ih => simp [List.flatMap_cons, ih]

/-- The per-character effect of the whole encode chain on a backslash-free
string. -/
def encChar (c : Char) : List Char :=
  if c = '\n' then ['\\', 'n']
  else if c = sq then ['\\', sq]
  else if c = '"' then ['\\', '"']
  else [c]

theorem encodeEdited_flatMap (s : List Char) :
    encodeEdited s = s.flatMap encChar := by
  unfold encodeEdited
  rw [replaceAll_single '\n', replaceAll_single sq, replaceAll_single '"',
    flatMap_assoc, flatMap_assoc]
  congr 1
  funext c
  by_cases h1 : c = '\n'
  · subst h1
    simp [encChar, sq]
  · by_cases h2 : c = sq
    · subst h2
      simp [encChar, sq]
    · by_cases h3 : c = '"'
      · subst h3
        simp [encChar, sq]
      · simp [encChar, h1, h2, h3]

/-- State of the content after the decoder's first pass (`\n` resolved). -/
def decStage1 (c : Char) : List Char :=
  if c = '\n' then ['\n']
  else if c = sq then ['\\', sq]
  else if c = '"' then ['\\', '"']
  else [c]

/-- State of the content after the decoder's second pass (quotes resolved). -/
def decStage2 (c : Char) : List Char :=
  if c = '\n' then ['\n']
  else if c = sq then [sq]
  else if c = '"' then ['\\', '"']
  else [c]

theorem decode_pass1 (s : List Char) (h : '\\' ∉ s) :
    replaceAll ['\\', 'n'] ['\n'] (s.flatMap encChar) = s.flatMap decStage1 := by
  induction s with
  | nil => rfl
  | cons c rest ih =>
    have hc : c ≠ '\\' := fun hc => h (hc ▸ List.mem_cons_self c rest)
    have hrest : '\\' ∉ rest := fun hm => h (List.mem_cons_of_mem _ hm)
    rw [List.flatMap_cons, List.flatMap_cons]
    by_cases h1 : c = '\n'
    · subst h1
      show replaceAll ['\\', 'n'] ['\n'] ('\\' :: 'n' :: rest.flatMap encChar) = _
      rw [replaceAll_cons_match _ _ (by simp) _ _ (by simp [List.isPrefixOf])]
      simp [decStage1, ih hrest]
    · by_cases h2 : c = sq
      · subst h2
        show replaceAll ['\\', 'n'] ['\n'] ('\\' :: sq :: rest.flatMap encChar) = _
        rw [replaceAll_cons_nomatch _ _ _ _ (by simp [List.isPrefixOf, sq]),
          replaceAll_cons_nomatch _ _ _ _ (by simp [List.isPrefixOf, sq])]
        simp [decStage1, sq, ih hrest]
      · by_cases h3 : c = '"'
        · subst h3
          show replaceAll ['\\', 'n'] ['\n'] ('\\' :: '"' :: rest.flatMap encChar) = _
          rw [replaceAll_cons_nomatch _ _ _ _ (by simp [List.isPrefixOf]),
            replaceAll_cons_nomatch _ _ _ _ (by simp [List.isPrefixOf])]
          simp [decStage1, sq, ih hrest]
        · have : encChar c = [c] := by simp [encChar, h1, h2, h3]
          rw [this]
          show replaceAll ['\\', 'n'] ['\n'] (c :: rest.flatMap encChar) = _
          rw [replaceAll_cons_nomatch _ _ _ _ (by
            simp only [List.isPrefixOf, Bool.and_eq_true, beq_iff_eq]
            intro hpre
            exact hc hpre.1.symm)]
          simp [decStage1, h1, h2, h3, ih hrest]

theorem decode_pass2 (s : List Char) (h : '\\' ∉ s) :
    replaceAll ['\\', sq] [sq] (s.flatMap decStage1) = s.flatMap decStage2 := by
  induction s with
  | nil => rfl
  | cons c rest ih =>
    have hc : c ≠ '\\' := fun hc => h (hc ▸ List.mem_cons_self c rest)
    have hrest : '\\' ∉ rest := fun hm => h (List.mem_cons_of_mem _ hm)
    rw [List.flatMap_cons, List.flatMap_cons]
    by_cases h1 : c = '\n'
    · subst h1
      show replaceAll ['\\', sq] [sq] ('\n' :: rest.flatMap decStage1) = _
      rw [replaceAll_cons_nomatch _ _ _ _ (by simp [List.isPrefixOf])]
      simp [decStage2, ih hrest]
    · by_cases h2 : c = sq
      · subst h2
        show replaceAll ['\\', sq] [sq] ('\\' :: sq :: rest.flatMap decStage1) = _
        rw [replaceAll_cons_match _ _ (by simp) _ _ (by simp [List.isPrefixOf])]
        show [sq] ++ replaceAll ['\\', sq] [sq] (rest.flatMap decStage1)
          = decStage2 sq ++ rest.flatMap decStage2
        rw [ih hrest, show decStage2 sq = [sq] from by decide]
      · by_cases h3 : c = '"'
        · subst h3
          show replaceAll ['\\', sq] [sq] ('\\' :: '"' :: rest.flatMap decStage1) = _
          rw [replaceAll_cons_nomatch _ _ _ _ (by simp [List.isPrefixOf, sq]),
            replaceAll_cons_nomatch _ _ _ _ (by simp [List.isPrefixOf, sq])]
          show '\\' :: '"' :: replaceAll ['\\', sq] [sq] (rest.flatMap decStage1)
            = decStage2 '"' ++ rest.flatMap decStage2
          rw [ih hrest, show decStage2 '"' = ['\\', '"'] from by decide]
          rfl
        · have : decStage1 c = [c] := by simp [decStage1, h1, h2, h3]
          rw [this]
          show replaceAll ['\\', sq] [sq] (c :: rest.flatMap decStage1) = _
          rw [replaceAll_cons_nomatch _ _ _ _ (by
            simp only [List.isPrefixOf, Bool.and_eq_true, beq_iff_eq]
            intro hpre
            exact hc hpre.1.symm)]
          simp [decStage2, h1, h2, h3, ih hrest]

theorem decode_pass3 (s : List Char) (h : '\\' ∉ s) :
    replaceAll ['\\', '"'] ['"'] (s.flatMap decStage2) = s := by
  induction s with
  | nil => rfl
  | cons c rest ih =>
    have hc : c ≠ '\\' := fun hc => h (hc ▸ List.mem_cons_self c rest)
    have hrest : '\\' ∉ rest := fun hm => h (List.mem_cons_of_mem _ hm)
    rw [List.flatMap_cons]
    by_cases h1 : c = '\n'
    · subst h1
      show replaceAll ['\\', '"'] ['"'] ('\n' :: rest.flatMap decStage2) = _
      rw [replaceAll_cons_nomatch _ _ _ _ (by simp [List.isPrefixOf])]
      simp [ih hrest]
    · by_cases h2 : c = sq
      · subst h2
        show replaceAll ['\\', '"'] ['"'] (sq :: rest.flatMap decStage2) = _
        rw [replaceAll_cons_nomatch _ _ _ _ (by simp [List.isPrefixOf, sq])]
        simp [ih hrest]
      · by_cases h3 : c = '"'
        · subst h3
          show replaceAll ['\\', '"'] ['"'] ('\\' :: '"' :: rest.flatMap decStage2) = _
          rw [replaceAll_cons_match _ _ (by simp) _ _ (by simp [List.isPrefixOf])]
          simp [ih hrest]
        · have : decStage2 c = [c] := by simp [decStage2, h1, h2, h3]
          rw [this]
          show replaceAll ['\\', '"'] ['"'] (c :: rest.flatMap decStage2) = _
          rw [replaceAll_cons_nomatch _ _ _ _ (by
            simp only [List.isPrefixOf, Bool.and_eq_true, beq_iff_eq]
            intro hpre
            exact hc hpre.1.symm)]
          simp [ih hrest]

/-- C9 amended: the inline-edit encode and `decodeEscaped` are exact
inverses on every content string that contains no backslash — in
particular on strings containing newlines and single or double quotes.
(They are not inverses on strings that already contain a backslash, since
the encoder does not escape backslashes; see the counterexample.) -/
theorem encode_decode_roundtrip (s : List Char) (h : '\\' ∉ s) :
    decodeEscaped (encodeEdited s) = s := by
  rw [encodeEdited_flatMap]
  unfold decodeEscaped
  rw [decode_pass1 s h, decode_pass2 s h, decode_pass3 s h]

theorem encode_decode_roundtrip_witness :
    ('\\' ∉ ['a', '\n', sq, 'b', '"', 'c'])
    ∧ decodeEscaped (encodeEdited ['a', '\n', sq, 'b', '"', 'c'])
        = ['a', '\n', sq, 'b', '"', 'c'] :=
  ⟨by decide, encode_decode_roundtrip ['a', '\n', sq, 'b', '"', 'c'] (by decide)⟩

/-- C9 counterexample: the two-character string backslash-`n` is encoded
unchanged (the encoder escapes no backslashes) but decodes to a newline, so
decode ∘ encode is not the identity on every content string. -/
theorem encode_decode_counterexample :
    decodeEscaped (encodeEdited ['\\', 'n']) ≠ ['\\', 'n'] := by
  decide

/-! ### The diff view (`src/src/components/YamlPanel.tsx` lines 21-48,
173-210)

`computeDiffLines` runs the external diff-match-patch library
(`diff_main` followed by `diff_cleanupSemantic`) and reslices the resulting
ops into lines.  The library is not part of this repository; theorems
quantify over any diff backend satisfying `DmpSpec`, the library's
documented guarantees, and concrete evaluations use `dmpModel`, a port of
the deterministic skeleton of `diff_main` (equality fast path, common
prefix/suffix extraction, and the empty-side cases of `diff_compute`) whose
output coincides with the library's on the inputs used here. -/

inductive DiffKind where
  | equal
  | insert
  | delete
  deriving DecidableEq, Repr

structure DiffLine where
  kind : DiffKind
  text : List Char
  deriving DecidableEq, Repr

/-- `DiffMatchPatch.DIFF_INSERT = 1`, `DIFF_DELETE = -1`, `DIFF_EQUAL = 0`;
the `else` of the source maps everything else to `equal`. -/
def kindOfOp (op : Int) : DiffKind :=
  if op = 1 then .insert else if op = -1 then .delete else .equal

/-- `data.split('\n')` followed by
`if (split.length > 1 && split[split.length-1] === '') split.pop()`. -/
def opLines (data : List Char) : List (List Char) :=
  let s := splitOnNl data
  if 1 < s.length ∧ s.getLast? = some [] then s.dropLast else s

/-- `computeDiffLines` (`YamlPanel.tsx` lines 26-43), parameterized by the
diff backend `dmp` (the library's `diff_main` + `diff_cleanupSemantic`). -/
def computeDiffLines (dmp : List Char → List Char → List (Int × List Char))
    (oldText newText : List Char) : List DiffLine :=
  (dmp oldText newText).flatMap
    (fun p => (opLines p.2).map (fun line => ⟨kindOfOp p.1, line⟩))

/-- What `renderDiff` (`YamlPanel.tsx` lines 173-210) puts on screen: for
identical contents or an empty previous version, the decoded new content
plainly, with no diff markers at all; otherwise the diff lines (each text
decoded at display time). -/
inductive RenderOutput where
  | plain (content : List Char)
  | diffView (lines : List DiffLine)
  deriving DecidableEq, Repr

def renderDiff (dmp : List Char → List Char → List (Int × List Char))
    (oldContent newContent : List Char) : RenderOutput :=
  if oldContent = newContent ∨ oldContent = [] then
    .plain (decodeEscaped newContent)
  else
    .diffView ((computeDiffLines dmp oldContent newContent).map
      (fun l => ⟨l.kind, decodeEscaped l.text⟩))

/-- Concatenation of the data of all non-insert ops — the library guarantees
this reconstructs the first text. -/
def diffText1 (d : List (Int × List Char)) : List Char :=
  (d.filter (fun p => p.1 != 1)).flatMap (·.2)

/-- Concatenation of the data of all non-delete ops — the library guarantees
this reconstructs the second text. -/
def diffText2 (d : List (Int × List Char)) : List Char :=
  (d.filter (fun p => p.1 != -1)).flatMap (·.2)

/-- The documented guarantees of diff-match-patch's
`diff_main` + `diff_cleanupSemantic` that the theorems rely on: ops are
delete/equal/insert; deletions+equalities concatenate to the first text and
insertions+equalities to the second (the library's fundamental invariant,
preserved by the cleanup); two equal texts short-circuit to a single
equality (the literal first lines of `diff_main`); and an empty first text
yields a single insertion (forced by `diff_compute`'s empty-side case). -/
structure DmpSpec (dmp : List Char → List Char → List (Int × List Char)) : Prop where
  ops_valid : ∀ t1 t2, ∀ p ∈ dmp t1 t2, p.1 = -1 ∨ p.1 = 0 ∨ p.1 = 1
  recon1 : ∀ t1 t2, diffText1 (dmp t1 t2) = t1
  recon2 : ∀ t1 t2, diffText2 (dmp t1 t2) = t2
  eq_fast : ∀ t, t ≠ [] → dmp t t = [(0, t)]
  eq_nil : dmp [] [] = []
  ins_empty : ∀ t, t ≠ [] → dmp [] t = [(1, t)]

/-- `diff_commonPrefix` (character-level). -/
def commonPrefixLen : List Char → List Char → Nat
  | a :: as, b :: bs => if a = b then commonPrefixLen as bs + 1 else 0
  | _, _ => 0

/-- `diff_commonSuffix`. -/
def commonSuffixLen (a b : List Char) : Nat :=
  commonPrefixLen a.reverse b.reverse

/-- The empty-side cases of `diff_compute`, with the general case collapsed
to a deletion followed by an insertion (what the library itself returns when
the shorter text has length one; half-match, line-mode and bisect refine the
general case further but preserve `DmpSpec`'s invariants). -/
def diffCompute (t1 t2 : List Char) : List (Int × List Char) :=
  if t1 = [] then [(1, t2)]
  else if t2 = [] then [(-1, t1)]
  else [(-1, t1), (1, t2)]

/-- Port of the deterministic skeleton of `diff_main`: equality fast path,
common prefix/suffix extraction, `diff_compute` on the middle, prefix and
suffix re-attached as equalities.  (`diff_cleanupMerge` and
`diff_cleanupSemantic` are no-ops on everything this file evaluates.) -/
def dmpModel (t1 t2 : List Char) : List (Int × List Char) :=
  if t1 = t2 then (if t1 = [] then [] else [(0, t1)])
  else
    let p := commonPrefixLen t1 t2
    let m1 := t1.drop p
    let m2 := t2.drop p
    let s := commonSuffixLen m1 m2
    let core := diffCompute (m1.take (m1.length - s)) (m2.take (m2.length - s))
    let withPre := if 0 < p then (0, t1.take p) :: core else core
    if 0 < s then withPre ++ [(0, m1.drop (m1.length - s))] else withPre

theorem commonPrefixLen_le_left (a b : List Char) : commonPrefixLen a b ≤ a.length := by
  induction a generalizing b with
  | nil => cases b <;> simp [commonPrefixLen]
  | cons x as ih =>
    cases b with
    | nil => simp [commonPrefixLen]
    | cons y bs =>
      rw [commonPrefixLen]
      by_cases h : x = y
      · rw [if_pos h]
        simpa using ih bs
      · rw [if_neg h]
        simp

theorem take_commonPrefixLen_eq (a b : List Char) :
    a.take (commonPrefixLen a b) = b.take (commonPrefixLen a b) := by
  induction a generalizing b with
  | nil => cases b <;> simp [commonPrefixLen]
  | cons x as ih =>
    cases b with
    | nil => simp [commonPrefixLen]
    | cons y bs =>
      rw [commonPrefixLen]
      by_cases h : x = y
      · rw [if_pos h]
        simp [h, ih bs]
      · rw [if_neg h]
        simp

theorem drop_commonSuffixLen_eq (a b : List Char) :
    a.drop (a.length - commonSuffixLen a b) = b.drop (b.length - commonSuffixLen a b) := by
  have h := take_commonPrefixLen_eq a.reverse b.reverse
  rw [List.take_reverse, List.take_reverse] at h
  have := congrArg List.reverse h
  simpa [commonSuffixLen] using this

theorem diffText1_append (d1 d2 : List (Int × List Char)) :
    diffText1 (d1 ++ d2) = diffText1 d1 ++ diffText1 d2 := by
  simp [diffText1, List.filter_append]

theorem diffText2_append (d1 d2 : List (Int × List Char)) :
    diffText2 (d1 ++ d2) = diffText2 d1 ++ diffText2 d2 := by
  simp [diffText2, List.filter_append]

theorem diffText1_cons_equal (x : List Char) (d : List (Int × List Char)) :
    diffText1 ((0, x) :: d) = x ++ diffText1 d := by
  simp [diffText1, List.filter_cons]

theorem diffText2_cons_equal (x : List Char) (d : List (Int × List Char)) :
    diffText2 ((0, x) :: d) = x ++ diffText2 d := by
  simp [diffText2, List.filter_cons]

theorem diffText1_diffCompute (a b : List Char) : diffText1 (diffCompute a b) = a := by
  unfold diffCompute
  by_cases h1 : a = []
  · simp [h1, diffText1]
  · by_cases h2 : b = []
    · simp [h1, h2, diffText1]
    · simp [h1, h2, diffText1]

theorem diffText2_diffCompute (a b : List Char) : diffText2 (diffCompute a b) = b := by
  unfold diffCompute
  by_cases h1 : a = []
  · simp [h1, diffText2]
  · by_cases h2 : b = []
    · simp [h1, h2, diffText2]
    · simp [h1, h2, diffText2]

theorem diffCompute_ops (a b : List Char) :
    ∀ p ∈ diffCompute a b, p.1 = -1 ∨ p.1 = 1 := by
  intro p hp
  unfold diffCompute at hp
  by_cases h1 : a = []
  · simp [h1] at hp
    rw [hp]
    right
    rfl
  · by_cases h2 : b = []
    · simp [h1, h2] at hp
      rw [hp]
      left
      rfl
    · simp [h1, h2] at hp
      rcases hp with hp | hp <;> rw [hp] <;> simp

theorem dmpModel_spec : DmpSpec dmpModel := by
  constructor
  case ops_valid =>
    intro t1 t2 p hp
    unfold dmpModel at hp
    by_cases heq : t1 = t2
    · rw [if_pos heq] at hp
      by_cases hnil : t1 = []
      · simp [hnil] at hp
      · rw [if_neg hnil] at hp
        simp at hp
        rw [hp]
        right
        left
        rfl
    · rw [if_neg heq] at hp
      simp only at hp
      set pfx := commonPrefixLen t1 t2 with hpfx
      set m1 := t1.drop pfx
      set m2 := t2.drop pfx
      set s := commonSuffixLen m1 m2
      set core := diffCompute (m1.take (m1.length - s)) (m2.take (m2.length - s)) with hcore
      have hcoreOps : ∀ q ∈ core, q.1 = -1 ∨ q.1 = 0 ∨ q.1 = 1 := by
        intro q hq
        rcases diffCompute_ops _ _ q hq with h | h
        · exact Or.inl h
        · exact Or.inr (Or.inr h)
      by_cases hs : 0 < s
      · rw [if_pos hs] at hp
        rw [List.mem_append] at hp
        rcases hp with hp | hp
        · by_cases hpp : 0 < pfx
          · rw [if_pos hpp] at hp
            rcases List.mem_cons.mp hp with hp | hp
            · rw [hp]
              right
              left
              rfl
            · exact hcoreOps p hp
          · rw [if_neg hpp] at hp
            exact hcoreOps p hp
        · simp at hp
          rw [hp]
          right
          left
          rfl
      · rw [if_neg hs] at hp
        by_cases hpp : 0 < pfx
        · rw [if_pos hpp] at hp
          rcases List.mem_cons.mp hp with hp | hp
          · rw [hp]
            right
            left
            rfl
          · exact hcoreOps p hp
        · rw [if_neg hpp] at hp
          exact hcoreOps p hp
  case recon1 =>
    intro t1 t2
    unfold dmpModel
    by_cases heq : t1 = t2
    · rw [if_pos heq]
      by_cases hnil : t1 = []
      · simp [hnil, diffText1]
      · rw [if_neg hnil]
        simp [diffText1]
    · rw [if_neg heq]
      simp only
      set pfx := commonPrefixLen t1 t2 with hpfx
      set m1 := t1.drop pfx with hm1
      set m2 := t2.drop pfx with hm2
      set s := commonSuffixLen m1 m2 with hs
      have hcore : diffText1 (diffCompute (m1.take (m1.length - s)) (m2.take (m2.length - s)))
          = m1.take (m1.length - s) := diffText1_diffCompute _ _
      have hsplit : t1 = t1.take pfx ++ (m1.take (m1.length - s) ++ m1.drop (m1.length - s)) := by
        rw [List.take_append_drop, hm1, List.take_append_drop]
      by_cases hspos : 0 < s
      · rw [if_pos hspos]
        by_cases hppos : 0 < pfx
        · rw [if_pos hppos]
          rw [diffText1_append, diffText1_cons_equal, hcore]
          have : diffText1 [(0, m1.drop (m1.length - s))] = m1.drop (m1.length - s) := by
            simp [diffText1]
          rw [this]
          conv_rhs => rw [hsplit]
          rw [List.append_assoc]
        · rw [if_neg hppos]
          have hp0 : pfx = 0 := Nat.eq_zero_of_not_pos hppos
          rw [diffText1_append, hcore]
          have : diffText1 [(0, m1.drop (m1.length - s))] = m1.drop (m1.length - s) := by
            simp [diffText1]
          rw [this]
          conv_rhs => rw [hsplit]
          rw [hp0]
          simp
      · rw [if_neg hspos]
        have hs0 : s = 0 := Nat.eq_zero_of_not_pos hspos
        have hdropnil : m1.drop (m1.length - s) = [] := by
          rw [hs0]
          simp
        by_cases hppos : 0 < pfx
        · rw [if_pos hppos]
          rw [diffText1_cons_equal, hcore]
          conv_rhs => rw [hsplit]
          rw [hdropnil]
          simp
        · rw [if_neg hppos]
          have hp0 : pfx = 0 := Nat.eq_zero_of_not_pos hppos
          rw [hcore]
          conv_rhs => rw [hsplit]
          rw [hdropnil, hp0]
          simp
  case recon2 =>
    intro t1 t2
    unfold dmpModel
    by_cases heq : t1 = t2
    · rw [if_pos heq]
      by_cases hnil : t1 = []
      · simp [hnil, diffText2, heq ▸ hnil]
      · rw [if_neg hnil]
        simp [diffText2, heq]
    · rw [if_neg heq]
      simp only
      set pfx := commonPrefixLen t1 t2 with hpfx
      set m1 := t1.drop pfx with hm1
      set m2 := t2.drop pfx with hm2
      set s := commonSuffixLen m1 m2 with hs
      have hcore : diffText2 (diffCompute (m1.take (m1.length - s)) (m2.take (m2.length - s)))
          = m2.take (m2.length - s) := diffText2_diffCompute _ _
      have hpre : t1.take pfx = t2.take pfx := take_commonPrefixLen_eq t1 t2
      have hsuf : m1.drop (m1.length - s) = m2.drop (m2.length - s) :=
        drop_commonSuffixLen_eq m1 m2
      have hsplit : t2 = t1.take pfx ++ (m2.take (m2.length - s) ++ m1.drop (m1.length - s)) := by
        rw [hpre, hsuf, List.take_append_drop, hm2, List.take_append_drop]
      by_cases hspos : 0 < s
      · rw [if_pos hspos]
        by_cases hppos : 0 < pfx
        · rw [if_pos hppos]
          rw [diffText2_append, diffText2_cons_equal, hcore]
          have : diffText2 [(0, m1.drop (m1.length - s))] = m1.drop (m1.length - s) := by
            simp [diffText2]
          rw [this]
          conv_rhs => rw [hsplit]
          rw [List.append_assoc]
        · rw [if_neg hppos]
          have hp0 : pfx = 0 := Nat.eq_zero_of_not_pos hppos
          rw [diffText2_append, hcore]
          have : diffText2 [(0, m1.drop (m1.length - s))] = m1.drop (m1.length - s) := by
            simp [diffText2]
          rw [this]
          conv_rhs => rw [hsplit]
          rw [hp0]
          simp
      · rw [if_neg hspos]
        have hs0 : s = 0 := Nat.eq_zero_of_not_pos hspos
        have hdropnil : m2.take (m2.length - s) = m2 := by
          rw [hs0]
          simp
        have hdropnil1 : m1.drop (m1.length - s) = [] := by
          rw [hs0]
          simp
        by_cases hppos : 0 < pfx
        · rw [if_pos hppos]
          rw [diffText2_cons_equal, hcore]
          conv_rhs => rw [hsplit]
          rw [hdropnil, hdropnil1]
          simp
        · rw [if_neg hppos]
          have hp0 : pfx = 0 := Nat.eq_zero_of_not_pos hppos
          rw [hcore]
          conv_rhs => rw [hsplit]
          rw [hdropnil, hdropnil1, hp0]
          simp
  case eq_fast =>
    intro t ht
    rw [dmpModel, if_pos rfl, if_neg ht]
  case eq_nil => rfl
  case ins_empty =>
    intro t ht
    rw [dmpModel, if_neg (fun h => ht h.symm)]
    simp only
    have hp : commonPrefixLen [] t = 0 := by cases t <;> rfl
    rw [hp]
    have hs : commonSuffixLen (List.drop 0 ([] : List Char)) (List.drop 0 t) = 0 := by
      simp only [List.drop_nil, List.drop_zero]
      rw [commonSuffixLen]
      cases t.reverse <;> rfl
    rw [hs]
    simp [diffCompute]

theorem filter_flatMap_comm (l : List α) (f : α → List β) (q : β → Bool) :
    (l.flatMap f).filter q = l.flatMap (fun x => (f x).filter q) := by
  induction l with
  | nil => rfl
  | cons a t ih => simp [List.flatMap_cons, List.filter_append, ih]

theorem flatMap_if_eq_filter_flatMap (l : List α) (p : α → Bool) (g : α → List β) :
    l.flatMap (fun x => if p x then g x else []) = (l.filter p).flatMap g := by
  induction l with
  | nil => rfl
  | cons a t ih =>
    by_cases h : p a <;> simp [List.flatMap_cons, List.filter_cons, h, ih]

theorem flatMap_congr_mem (l : List α) (f g : α → List β)
    (h : ∀ x ∈ l, f x = g x) : l.flatMap f = l.flatMap g := by
  induction l with
  | nil => rfl
  | cons a t ih =>
    rw [List.flatMap_cons, List.flatMap_cons, h a (List.mem_cons_self a t),
      ih (fun x hx => h x (List.mem_cons_of_mem _ hx))]

theorem flatten_splitOnNl (d : List Char) :
    (splitOnNl d).flatten = d.filter (fun c => c != '\n') := by
  induction d with
  | nil => rfl
  | cons c rest ih =>
    by_cases h : c = '\n'
    · rw [splitOnNl, if_pos h]
      simp only [List.flatten_cons, List.nil_append, ih, List.filter_cons]
      simp [h]
    · rw [splitOnNl, if_neg h]
      cases hs : splitOnNl rest with
      | nil => exact absurd hs (splitOnNl_ne_nil rest)
      | cons l ls =>
        rw [hs] at ih
        simp only [List.flatten_cons] at ih ⊢
        rw [List.filter_cons]
        have hc : (c != '\n') = true := by simp [h]
        rw [hc]
        simp only [List.cons_append]
        rw [ih]
        simp

theorem flatten_opLines (d : List Char) :
    (opLines d).flatten = d.filter (fun c => c != '\n') := by
  rw [opLines]
  by_cases h : 1 < (splitOnNl d).length ∧ (splitOnNl d).getLast? = some []
  · rw [if_pos h]
    have hne : splitOnNl d ≠ [] := splitOnNl_ne_nil d
    have hlast : (splitOnNl d).getLast hne = [] := by
      have := List.getLast?_eq_getLast (splitOnNl d) hne
      rw [h.2] at this
      exact (Option.some.injEq _ _ ▸ this).symm
    have hdecomp : splitOnNl d = (splitOnNl d).dropLast ++ [[]] := by
      conv_lhs => rw [← List.dropLast_append_getLast hne]
      rw [hlast]
    have := flatten_splitOnNl d
    rw [hdecomp] at this
    simpa using this
  · rw [if_neg h]
    exact flatten_splitOnNl d

theorem filter_map_mk_kind (src : List (List Char)) (k K : DiffKind) :
    ((src.map (fun line => (⟨k, line⟩ : DiffLine))).filter (fun l => l.kind != K))
      = if k != K then src.map (fun line => (⟨k, line⟩ : DiffLine)) else [] := by
  by_cases h : k = K
  · subst h
    simp
  · have hb : (k != K) = true := by simp [h]
    rw [if_pos hb]
    apply List.filter_eq_self.mpr
    intro l hl
    obtain ⟨line, _, rfl⟩ := List.mem_map.mp hl
    simpa using h

theorem flatMap_text_map_mk (src : List (List Char)) (k : DiffKind) :
    (src.map (fun line => (⟨k, line⟩ : DiffLine))).flatMap (·.text) = src.flatten := by
  induction src with
  | nil => rfl
  | cons a t ih => simp [List.flatMap_cons, ih]

theorem kindOfOp_ne_delete (op : Int) (h : op = -1 ∨ op = 0 ∨ op = 1) :
    (kindOfOp op != DiffKind.delete) = (op != -1) := by
  rcases h with h | h | h <;> subst h <;> rfl

theorem kindOfOp_ne_insert (op : Int) (h : op = -1 ∨ op = 0 ∨ op = 1) :
    (kindOfOp op != DiffKind.insert) = (op != 1) := by
  rcases h with h | h | h <;> subst h <;> rfl

theorem computeDiffLines_nonDelete_texts
    (dmp : List Char → List Char → List (Int × List Char)) (hspec : DmpSpec dmp)
    (o n : List Char) :
    ((computeDiffLines dmp o n).filter (fun l => l.kind != DiffKind.delete)).flatMap (·.text)
      = n.filter (fun c => c != '\n') := by
  rw [computeDiffLines, filter_flatMap_comm, flatMap_assoc]
  have hpt : ∀ p ∈ dmp o n,
      (((opLines p.2).map (fun line => (⟨kindOfOp p.1, line⟩ : DiffLine))).filter
          (fun l => l.kind != DiffKind.delete)).flatMap (·.text)
        = if p.1 != -1 then p.2.filter (fun c => c != '\n') else [] := by
    intro p hp
    rw [filter_map_mk_kind, kindOfOp_ne_delete p.1 (hspec.ops_valid o n p hp)]
    by_cases h : p.1 = -1
    · simp [h]
    · have hb : (p.1 != -1) = true := by simp [h]
      rw [hb]
      simp only [if_true]
      rw [flatMap_text_map_mk, flatten_opLines]
  rw [flatMap_congr_mem _ _ _ hpt, flatMap_if_eq_filter_flatMap,
    ← filter_flatMap_comm, ← diffText2, hspec.recon2]

theorem computeDiffLines_nonInsert_texts
    (dmp : List Char → List Char → List (Int × List Char)) (hspec : DmpSpec dmp)
    (o n : List Char) :
    ((computeDiffLines dmp o n).filter (fun l => l.kind != DiffKind.insert)).flatMap (·.text)
      = o.filter (fun c => c != '\n') := by
  rw [computeDiffLines, filter_flatMap_comm, flatMap_assoc]
  have hpt : ∀ p ∈ dmp o n,
      (((opLines p.2).map (fun line => (⟨kindOfOp p.1, line⟩ : DiffLine))).filter
          (fun l => l.kind != DiffKind.insert)).flatMap (·.text)
        = if p.1 != 1 then p.2.filter (fun c => c != '\n') else [] := by
    intro p hp
    rw [filter_map_mk_kind, kindOfOp_ne_insert p.1 (hspec.ops_valid o n p hp)]
    by_cases h : p.1 = 1
    · simp [h]
    · have hb : (p.1 != 1) = true := by simp [h]
      rw [hb]
      simp only [if_true]
      rw [flatMap_text_map_mk, flatten_opLines]
  rw [flatMap_congr_mem _ _ _ hpt, flatMap_if_eq_filter_flatMap,
    ← filter_flatMap_comm, ← diffText1, hspec.recon1]

/-- C8 amended: for every pair of texts and any diff backend with the
library's guarantees, concatenating the `text` fields of the non-delete
entries of `computeDiffLines` reconstructs `new` **with every newline
character removed** (the line split drops the separators), and the
non-insert entries likewise reconstruct `old` with its newlines removed;
exact reconstruction of the original strings fails as soon as a text
contains a newline. -/
theorem diff_reconstruction (dmp : List Char → List Char → List (Int × List Char))
    (hspec : DmpSpec dmp) (o n : List Char) :
    ((computeDiffLines dmp o n).filter (fun l => l.kind != DiffKind.delete)).flatMap (·.text)
      = n.filter (fun c => c != '\n')
    ∧ ((computeDiffLines dmp o n).filter (fun l => l.kind != DiffKind.insert)).flatMap (·.text)
      = o.filter (fun c => c != '\n') :=
  ⟨computeDiffLines_nonDelete_texts dmp hspec o n,
   computeDiffLines_nonInsert_texts dmp hspec o n⟩

theorem diff_reconstruction_witness :
    ((computeDiffLines dmpModel ['a'] ['a', '\n', 'b']).filter
        (fun l => l.kind != DiffKind.delete)).flatMap (·.text)
      = ['a', '\n', 'b'].filter (fun c => c != '\n')
    ∧ ((computeDiffLines dmpModel ['a'] ['a', '\n', 'b']).filter
        (fun l => l.kind != DiffKind.insert)).flatMap (·.text)
      = ['a'].filter (fun c => c != '\n') :=
  diff_reconstruction dmpModel dmpModel_spec ['a'] ['a', '\n', 'b']

/-- C8 counterexample: diffing `""` against `"a\nb"` yields the insert lines
`a` and `b`; concatenating the non-delete texts gives `ab`, not `a\nb` — the
newline is lost, so the concatenation does not reconstruct `new` exactly. -/
theorem diff_reconstruction_counterexample :
    ((computeDiffLines dmpModel [] ['a', '\n', 'b']).filter
        (fun l => l.kind != DiffKind.delete)).flatMap (·.text)
      ≠ ['a', '\n', 'b'] := by
  decide

/-- C7 amended: `computeDiffLines dmp t t` contains only `equal` entries,
for any backend with the library's guarantees; but for empty `old` the diff
itself yields only `insert` entries, one per (JS-split) line of `new` — the
degradation to an all-equal display happens in `renderDiff`, which bypasses
the diff entirely when `old` is empty and renders `new` plainly. -/
theorem diff_trivial_inputs (dmp : List Char → List Char → List (Int × List Char))
    (hspec : DmpSpec dmp) :
    (∀ t, ∀ l ∈ computeDiffLines dmp t t, l.kind = DiffKind.equal)
    ∧ (∀ nw, nw ≠ [] → computeDiffLines dmp [] nw
        = (opLines nw).map (fun line => ⟨DiffKind.insert, line⟩))
    ∧ (∀ nw, renderDiff dmp [] nw = .plain (decodeEscaped nw)) := by
  refine ⟨?_, ?_, ?_⟩
  · intro t l hl
    by_cases ht : t = []
    · subst ht
      rw [computeDiffLines, hspec.eq_nil] at hl
      simp at hl
    · rw [computeDiffLines, hspec.eq_fast t ht] at hl
      simp only [List.flatMap_cons, List.flatMap_nil, List.append_nil] at hl
      obtain ⟨line, _, rfl⟩ := List.mem_map.mp hl
      rfl
  · intro nw hnw
    rw [computeDiffLines, hspec.ins_empty nw hnw]
    simp only [List.flatMap_cons, List.flatMap_nil, List.append_nil]
    rfl
  · intro nw
    rw [renderDiff, if_pos (Or.inr rfl)]

theorem diff_trivial_inputs_witness :
    (∀ l ∈ computeDiffLines dmpModel ['x'] ['x'], l.kind = DiffKind.equal)
    ∧ computeDiffLines dmpModel [] ['a', '\n', 'b']
        = (opLines ['a', '\n', 'b']).map (fun line => ⟨DiffKind.insert, line⟩)
    ∧ renderDiff dmpModel [] ['a'] = .plain (decodeEscaped ['a']) :=
  ⟨fun l hl => (diff_trivial_inputs dmpModel dmpModel_spec).1 ['x'] l hl,
   (diff_trivial_inputs dmpModel dmpModel_spec).2.1 ['a', '\n', 'b'] (by decide),
   (diff_trivial_inputs dmpModel dmpModel_spec).2.2 ['a']⟩

/-- C7 counterexample: with empty `old`, `computeDiffLines` on `"a"` yields
an `insert` entry, not `equal` entries — the diff computation itself does
not degrade empty-`old` inputs to `equal` lines. -/
theorem diff_empty_old_counterexample :
    ¬ (∀ l ∈ computeDiffLines dmpModel [] ['a'], l.kind = DiffKind.equal) := by
  decide

end MaestroBuilder
